import Mathlib

/-!
# Verification of the NSV (Newline-Separated Values) codec

Shallow embedding of `src/lib.rs` of the `nsv-rust` repository, together
with theorems settling the specification claims.

Conventions of the embedding:
* A byte is a `Nat` (the code compares bytes only against the literals
  `0x0A` = 10 (LF), `0x5C` = 92 (backslash) and `0x6E` = 110 (`n`), and
  otherwise treats them as opaque payload, so nothing depends on an upper
  bound of 255).
* `Vec<u8>` is `List Nat`; `Vec<Vec<u8>>` is a `Row`; `Vec<Vec<Vec<u8>>>`
  is a `Doc`.
* Rust slices `input[a..b]` become `byteSlice input a b`
  (`(input.drop a).take (b - a)`).
* The rayon worker count (`rayon::current_num_threads()`, always ≥ 1) is
  passed as an explicit parameter `numThreads` to the functions that read
  it, and the `usize::MAX` sentinel stored in `build_col_map` is embedded
  as `Option Nat` (`none` = sentinel, `some i` = projected slot `i`).
-/

namespace NSV

abbrev Cell := List Nat
abbrev Row := List Cell
abbrev Doc := List Row

/-- Rust slice `l[a..b]` (for `a ≤ b ≤ l.length`; total here). -/
def byteSlice (l : List Nat) (a b : Nat) : List Nat :=
  (l.drop a).take (b - a)

/-! ## Escaper (`unescape_bytes`, `escape_bytes`, lib.rs 153-220) -/

/-- The scan loop of `unescape_bytes` (lib.rs 162-181): the `Bool`
argument is the `escaped` flag; `n` after a backslash yields LF, `\\`
yields a backslash, any other byte is passed through with the backslash,
and a backslash that is the final byte emits nothing. -/
def unescapeGo : List Nat → Bool → List Nat
  | [], _ => []
  | b :: rest, true =>
      if b = 110 then 10 :: unescapeGo rest false
      else if b = 92 then 92 :: unescapeGo rest false
      else 92 :: b :: unescapeGo rest false
  | b :: rest, false =>
      if b = 92 then unescapeGo rest true
      else b :: unescapeGo rest false

/-- `unescape_bytes` (lib.rs 153-184): the single backslash is the empty
cell, backslash-free input is returned unchanged, otherwise the escape
scan runs. -/
def unescape_bytes (s : List Nat) : List Nat :=
  if s = [92] then []
  else if 92 ∈ s then unescapeGo s false
  else s

/-- Per-byte emission of the escape loop of `escape_bytes`
(lib.rs 203-214). -/
def escByte (b : Nat) : List Nat :=
  if b = 92 then [92, 92]
  else if b = 10 then [92, 110]
  else [b]

/-- `escape_bytes` (lib.rs 196-220): empty input becomes the single
backslash; input containing LF or backslash is escaped byte by byte;
anything else is returned unchanged. -/
def escape_bytes (s : List Nat) : List Nat :=
  if s = [] then [92]
  else if 10 ∈ s ∨ 92 ∈ s then s.flatMap escByte
  else s

/-! ### Escaper lemmas -/

lemma unescapeGo_flatMap_escByte (x : List Nat) :
    unescapeGo (x.flatMap escByte) false = x := by
  induction x with
  | nil => rfl
  | cons b rest ih =>
      by_cases hb92 : b = 92
      · subst hb92; simpa [escByte, unescapeGo] using ih
      · by_cases hb10 : b = 10
        · subst hb10; simpa [escByte, unescapeGo] using ih
        · simp [escByte, hb92, hb10, unescapeGo, ih]

lemma flatMap_escByte_ne_single_backslash (x : List Nat) (hx : x ≠ []) :
    x.flatMap escByte ≠ [92] := by
  cases x with
  | nil => exact absurd rfl hx
  | cons b rest =>
      intro h
      by_cases hb92 : b = 92
      · subst hb92; simp [escByte, List.flatMap_cons] at h
      · by_cases hb10 : b = 10
        · subst hb10; simp [escByte, List.flatMap_cons] at h
        · simp [escByte, hb92, hb10, List.flatMap_cons] at h

lemma mem_backslash_flatMap_escByte (x : List Nat) (hx : 10 ∈ x ∨ 92 ∈ x) :
    92 ∈ x.flatMap escByte := by
  rcases hx with h | h
  · exact List.mem_flatMap.mpr ⟨10, h, by simp [escByte]⟩
  · exact List.mem_flatMap.mpr ⟨92, h, by simp [escByte]⟩

/-- Round-trip law of the escaper: `unescape_bytes (escape_bytes x) = x`
for every byte sequence `x`. -/
lemma unescape_escape (x : List Nat) :
    unescape_bytes (escape_bytes x) = x := by
  by_cases hx : x = []
  · subst hx; simp [escape_bytes, unescape_bytes]
  · by_cases hmem : 10 ∈ x ∨ 92 ∈ x
    · have hne : x.flatMap escByte ≠ [92] :=
        flatMap_escByte_ne_single_backslash x hx
      have hb : 92 ∈ x.flatMap escByte := mem_backslash_flatMap_escByte x hmem
      simp only [escape_bytes, hx, hmem, if_true, if_false, ite_true]
      rw [unescape_bytes, if_neg hne, if_pos hb]
      exact unescapeGo_flatMap_escByte x
    · push_neg at hmem
      have h92 : 92 ∉ x := hmem.2
      have hxne : x ≠ [92] := by
        intro h; subst h; simp at h92
      simp [escape_bytes, hx, hmem.1, h92, unescape_bytes, hxne]

lemma unescapeGo_no_backslash (s : List Nat) (h : 92 ∉ s) :
    unescapeGo s false = s := by
  induction s with
  | nil => rfl
  | cons b rest ih =>
      have hb : b ≠ 92 := fun hb => h (hb ▸ List.mem_cons_self b rest)
      have hrest : 92 ∉ rest := fun hr => h (List.mem_cons_of_mem _ hr)
      simp [unescapeGo, hb, ih hrest]

/-- A trailing backslash after backslash-free content is dropped. -/
lemma unescapeGo_dangling (s : List Nat) (h : 92 ∉ s) :
    unescapeGo (s ++ [92]) false = s := by
  induction s with
  | nil => rfl
  | cons b rest ih =>
      have hb : b ≠ 92 := fun hb => h (hb ▸ List.mem_cons_self b rest)
      have hrest : 92 ∉ rest := fun hr => h (List.mem_cons_of_mem _ hr)
      simp [unescapeGo, hb, ih hrest]

lemma escByte_ne_nil (b : Nat) : escByte b ≠ [] := by
  by_cases h92 : b = 92
  · simp [escByte, h92]
  · by_cases h10 : b = 10 <;> simp [escByte, h92, h10]

lemma escape_bytes_ne_nil (c : List Nat) : escape_bytes c ≠ [] := by
  by_cases hc : c = []
  · subst hc; simp [escape_bytes]
  · by_cases hmem : 10 ∈ c ∨ 92 ∈ c
    · simp only [escape_bytes, hc, hmem, if_false, if_true, ite_true]
      cases c with
      | nil => exact absurd rfl hc
      | cons b rest =>
          simp only [List.flatMap_cons, ne_eq, List.append_eq_nil]
          intro h
          exact escByte_ne_nil b h.1
    · simp [escape_bytes, hc, hmem]

lemma escByte_no_lf (b : Nat) : 10 ∉ escByte b := by
  by_cases h92 : b = 92
  · simp [escByte, h92]
  · by_cases h10 : b = 10
    · simp [escByte, h92, h10]
    · simp [escByte, h92, h10]
      omega

lemma escape_bytes_no_lf (c : List Nat) : 10 ∉ escape_bytes c := by
  by_cases hc : c = []
  · subst hc; simp [escape_bytes]
  · by_cases hmem : 10 ∈ c ∨ 92 ∈ c
    · simp only [escape_bytes, hc, hmem, if_false, if_true, ite_true]
      intro h
      rcases List.mem_flatMap.mp h with ⟨b, _, hb⟩
      exact escByte_no_lf b hb
    · push_neg at hmem
      simp [escape_bytes, hc, hmem.1, hmem.2]

/-- **C4.** Escaper laws: the lone backslash unescapes to the empty cell;
backslash-free cells unescape to themselves; the empty cell escapes to the
lone backslash; `unescape_bytes` is a left inverse of `escape_bytes`; and
a dangling final backslash (after backslash-free content) is silently
dropped. -/
theorem escape_unescape_laws :
    unescape_bytes [92] = [] ∧
    (∀ s : List Nat, 92 ∉ s → unescape_bytes s = s) ∧
    escape_bytes [] = [92] ∧
    (∀ x : List Nat, unescape_bytes (escape_bytes x) = x) ∧
    (∀ s : List Nat, 92 ∉ s → unescape_bytes (s ++ [92]) = s) := by
  refine ⟨by simp [unescape_bytes], ?_, by simp [escape_bytes], unescape_escape, ?_⟩
  · intro s hs
    have hne : s ≠ [92] := by
      intro h; subst h; simp at hs
    simp [unescape_bytes, hne, hs]
  · intro s hs
    by_cases hnil : s = []
    · subst hnil; simp [unescape_bytes]
    · have hne : s ++ [92] ≠ [92] := by
        cases s with
        | nil => intro _; exact hnil rfl
        | cons a t =>
            intro h
            have hl := congrArg List.length h
            simp at hl
      have hmem : 92 ∈ s ++ [92] := by simp
      rw [unescape_bytes, if_neg hne, if_pos hmem]
      exact unescapeGo_dangling s hs

/-- Witness for C4 at concrete inputs. -/
theorem escape_unescape_laws_witness :
    unescape_bytes [97, 98] = [97, 98] ∧
    unescape_bytes (escape_bytes [97, 10, 92]) = [97, 10, 92] ∧
    unescape_bytes [97, 98, 92] = [97, 98] :=
  ⟨escape_unescape_laws.2.1 [97, 98] (by decide),
   escape_unescape_laws.2.2.2.1 [97, 10, 92],
   escape_unescape_laws.2.2.2.2 [97, 98] (by decide)⟩

/-! ## Sequential decoder (`decode_bytes_sequential`, lib.rs 62-88) -/

/-- The scan loop of `decode_bytes_sequential`, iterating `(pos, b)`
over the enumerated input (first list argument: the bytes not yet
scanned, so that the recursion is structural): `start` marks the
beginning of the current cell, `data` and `row` accumulate the document.
On an LF at `pos`: a non-empty span `[start, pos)` is a cell, an empty
span finalises the row. After the loop a trailing span becomes a final
cell and a non-empty row is appended. -/
def decodeSeqGo (input : List Nat) : List Nat → Nat → Nat → Doc → Row → Doc
  | [], _, start, data, row =>
      let row2 := if start < input.length then
          row ++ [unescape_bytes (byteSlice input start input.length)]
        else row
      if row2 = [] then data else data ++ [row2]
  | b :: rest, pos, start, data, row =>
      if b = 10 then
        if start < pos then
          decodeSeqGo input rest (pos + 1) (pos + 1) data
            (row ++ [unescape_bytes (byteSlice input start pos)])
        else
          decodeSeqGo input rest (pos + 1) (pos + 1) (data ++ [row]) []
      else
        decodeSeqGo input rest (pos + 1) start data row

/-- `decode_bytes_sequential` (lib.rs 62-88). -/
def decode_bytes_sequential (input : List Nat) : Doc :=
  decodeSeqGo input input 0 0 [] []

/-! ### Accumulator form of the sequential scan

Proof machinery: an equivalent formulation of the scan that accumulates
the bytes of the current cell instead of slicing, which composes under
`++`. -/

/-- One scan step on state `(data, row, cur)`, where `cur` holds the
bytes of the pending cell (the bytes of `input[start..pos]`). -/
def stepD : Doc × Row × Cell → Nat → Doc × Row × Cell
  | (data, row, cur), b =>
    if b = 10 then
      if cur = [] then (data ++ [row], [], [])
      else (data, row ++ [unescape_bytes cur], [])
    else (data, row, cur ++ [b])

/-- Run the scan over a byte list. -/
def runD (l : List Nat) (s : Doc × Row × Cell) : Doc × Row × Cell :=
  l.foldl stepD s

/-- The post-loop finalisation of `decode_bytes_sequential`. -/
def finD : Doc × Row × Cell → Doc
  | (data, row, cur) =>
    let row2 := if cur = [] then row else row ++ [unescape_bytes cur]
    if row2 = [] then data else data ++ [row2]

/-- Accumulator form of the sequential decoder. -/
def decodeAcc (l : List Nat) : Doc := finD (runD l ([], [], []))

lemma runD_nil (s : Doc × Row × Cell) : runD [] s = s := rfl

lemma runD_cons (b : Nat) (l : List Nat) (s : Doc × Row × Cell) :
    runD (b :: l) s = runD l (stepD s b) := rfl

lemma runD_append (l₁ l₂ : List Nat) (s : Doc × Row × Cell) :
    runD (l₁ ++ l₂) s = runD l₂ (runD l₁ s) :=
  List.foldl_append _ _ _ _

/-! ### Slice lemmas -/

lemma byteSlice_self (l : List Nat) (a : Nat) : byteSlice l a a = [] := by
  simp [byteSlice]

lemma byteSlice_zero_length (l : List Nat) : byteSlice l 0 l.length = l := by
  simp [byteSlice]

lemma byteSlice_snoc (l : List Nat) (a p : Nat) (ha : a ≤ p) (hp : p < l.length) :
    byteSlice l a (p + 1) = byteSlice l a p ++ [l.getD p 0] := by
  unfold byteSlice
  have h1 : p + 1 - a = (p - a) + 1 := by omega
  rw [h1]
  have h2 : (l.drop a).length = l.length - a := List.length_drop a l
  have h3 : p - a < (l.drop a).length := by omega
  rw [List.take_succ]
  congr 1
  have h4 : (l.drop a)[p - a]? = l[a + (p - a)]? := List.getElem?_drop l a (p - a)
  have h5 : a + (p - a) = p := by omega
  rw [h5] at h4
  have h6 : l[p]? = some (l.getD p 0) := by
    rw [List.getD_eq_getElem l 0 hp]
    exact List.getElem?_eq_getElem hp
  rw [h4, h6]
  simp

lemma byteSlice_eq_nil_iff (l : List Nat) (a b : Nat) (hb : b ≤ l.length) :
    byteSlice l a b = [] ↔ b ≤ a := by
  unfold byteSlice
  constructor
  · intro h
    by_contra hab
    push_neg at hab
    have h2 : (l.drop a).length = l.length - a := List.length_drop a l
    have := congrArg List.length h
    simp at this
    omega
  · intro h
    have : b - a = 0 := by omega
    simp [this]

lemma byteSlice_drop (l : List Nat) (q a b : Nat) (hq : q ≤ a) :
    byteSlice l a b = byteSlice (l.drop q) (a - q) (b - q) := by
  unfold byteSlice
  rw [List.drop_drop]
  have h1 : q + (a - q) = a := by omega
  have h2 : b - q - (a - q) = b - a := by omega
  rw [h1, h2]

/-! ### Equivalence of the positional scan and the accumulator scan -/

lemma drop_eq_cons_of_lt (l : List Nat) (p : Nat) (h : p < l.length) :
    l.drop p = l.getD p 0 :: l.drop (p + 1) := by
  rw [List.getD_eq_getElem l 0 h]
  exact List.drop_eq_getElem_cons h

/-- Inverting `input.drop pos = b :: rest`. -/
lemma drop_cons_inv (input : List Nat) (pos : Nat) (b : Nat) (rest : List Nat)
    (h : input.drop pos = b :: rest) :
    pos < input.length ∧ input.getD pos 0 = b ∧ rest = input.drop (pos + 1) := by
  have hlen : pos < input.length := by
    by_contra hge
    push_neg at hge
    rw [List.drop_eq_nil_of_le hge] at h
    exact List.noConfusion h
  have h2 := drop_eq_cons_of_lt input pos hlen
  rw [h] at h2
  exact ⟨hlen, (List.cons.injEq _ _ _ _ ▸ h2).1.symm, (List.cons.injEq _ _ _ _ ▸ h2).2⟩

lemma decodeSeqGo_eq_acc (input : List Nat) :
    ∀ rest pos start data row, rest = input.drop pos → start ≤ pos → pos ≤ input.length →
      decodeSeqGo input rest pos start data row =
        finD (runD rest (data, row, byteSlice input start pos)) := by
  intro rest
  induction rest with
  | nil =>
      intro pos start data row hrest hsp hpl
      have hpos : pos = input.length := by
        have := congrArg List.length hrest
        simp at this
        omega
      subst hpos
      rw [decodeSeqGo, runD_nil, finD]
      by_cases hs : start < input.length
      · have hne : byteSlice input start input.length ≠ [] := by
          rw [ne_eq, byteSlice_eq_nil_iff input start input.length le_rfl]
          omega
        simp [hs, hne]
      · have hnil : byteSlice input start input.length = [] := by
          rw [byteSlice_eq_nil_iff input start input.length le_rfl]
          omega
        simp [hs, hnil]
  | cons b rest ih =>
      intro pos start data row hrest hsp hpl
      obtain ⟨h, hb, hdrop⟩ := drop_cons_inv input pos b rest hrest.symm
      rw [decodeSeqGo, runD_cons]
      by_cases hb10 : b = 10
      · by_cases hsp2 : start < pos
        · have hne : byteSlice input start pos ≠ [] := by
            rw [ne_eq, byteSlice_eq_nil_iff input start pos (le_of_lt h)]
            omega
          rw [if_pos hb10, if_pos hsp2]
          rw [ih (pos + 1) (pos + 1) data
            (row ++ [unescape_bytes (byteSlice input start pos)]) hdrop le_rfl (by omega)]
          simp [stepD, hb10, hne, byteSlice_self]
        · have hnil : byteSlice input start pos = [] := by
            rw [byteSlice_eq_nil_iff input start pos (le_of_lt h)]
            omega
          rw [if_pos hb10, if_neg hsp2]
          rw [ih (pos + 1) (pos + 1) (data ++ [row]) [] hdrop le_rfl (by omega)]
          simp [stepD, hb10, hnil, byteSlice_self]
      · rw [if_neg hb10]
        rw [ih (pos + 1) start data row hdrop (by omega) (by omega)]
        have hslice : byteSlice input start (pos + 1) =
            byteSlice input start pos ++ [input.getD pos 0] :=
          byteSlice_snoc input start pos hsp h
        rw [hb] at hslice
        simp [stepD, hb10, hslice]

/-- The sequential decoder equals its accumulator form. -/
lemma decode_bytes_sequential_eq_acc (input : List Nat) :
    decode_bytes_sequential input = decodeAcc input := by
  unfold decode_bytes_sequential decodeAcc
  rw [decodeSeqGo_eq_acc input input 0 0 [] [] (by simp) le_rfl (by omega)]
  simp [byteSlice_self]

/-! ### Framing and split lemmas for the scan -/

lemma stepD_frame (dd : Doc) (d : Doc) (r : Row) (c : Cell) (b : Nat) :
    stepD (dd ++ d, r, c) b =
      (dd ++ (stepD (d, r, c) b).1, (stepD (d, r, c) b).2.1, (stepD (d, r, c) b).2.2) := by
  unfold stepD
  by_cases hb : b = 10
  · by_cases hc : c = [] <;> simp [hb, hc]
  · simp [hb]

lemma runD_frame (l : List Nat) :
    ∀ (dd : Doc) (d : Doc) (r : Row) (c : Cell),
      runD l (dd ++ d, r, c) =
        (dd ++ (runD l (d, r, c)).1, (runD l (d, r, c)).2.1, (runD l (d, r, c)).2.2) := by
  induction l with
  | nil => intro dd d r c; rfl
  | cons b t ih =>
      intro dd d r c
      rw [runD_cons, runD_cons, stepD_frame]
      rw [ih]

lemma finD_frame (dd : Doc) (d : Doc) (r : Row) (c : Cell) :
    finD (dd ++ d, r, c) = dd ++ finD (d, r, c) := by
  unfold finD
  by_cases hc : c = []
  · by_cases hr : r = [] <;> simp [hc, hr]
  · simp [hc]

lemma decodeAcc_nil : decodeAcc [] = [] := rfl

/-- After any LF the pending-cell accumulator is empty. -/
lemma runD_cur_after_lf (l : List Nat) (s : Doc × Row × Cell) :
    (runD (l ++ [10]) s).2.2 = [] := by
  rw [runD_append]
  rcases runD l s with ⟨d, r, c⟩
  show (stepD (d, r, c) 10).2.2 = []
  unfold stepD
  by_cases hc : c = [] <;> simp [hc]

/-- A list ending in a clean row boundary: the last byte is an LF and it
is either the whole list or preceded by another LF. -/
def cleanEnd (C : List Nat) : Prop :=
  ∃ C2, C = C2 ++ [10] ∧ (C2 = [] ∨ ∃ C3, C2 = C3 ++ [10])

/-- Running the scan over a cleanly terminated list from the initial
state lands in the initial row/cell state, with the decoded document
accumulated. -/
lemma runD_cleanEnd (C : List Nat) (h : cleanEnd C) :
    runD C ([], [], []) = (decodeAcc C, [], []) := by
  rcases h with ⟨C2, rfl, h2⟩
  have hcur : (runD C2 ([], [], [])).2.2 = [] := by
    rcases h2 with rfl | ⟨C3, rfl⟩
    · rfl
    · exact runD_cur_after_lf C3 _
  rw [runD_append]
  rcases hs : runD C2 ([], [], []) with ⟨d, r, c⟩
  have hc : c = [] := by rw [hs] at hcur; exact hcur
  subst hc
  have hstep : runD [10] (d, r, []) = (d ++ [r], [], []) := by
    unfold runD List.foldl stepD
    simp
  rw [hstep]
  have hfin : decodeAcc (C2 ++ [10]) = d ++ [r] := by
    unfold decodeAcc
    rw [runD_append, hs, hstep, finD]
    simp
  rw [hfin]

/-- Splitting the input at a clean row boundary splits the decode. -/
lemma decodeAcc_split (B : List Nat) (p : Nat) (hp : p ≤ B.length)
    (hclean : cleanEnd (B.take p)) :
    decodeAcc B = decodeAcc (B.take p) ++ decodeAcc (B.drop p) := by
  have h1 : runD B ([], [], []) =
      runD (B.drop p) (decodeAcc (B.take p) ++ [], [], []) := by
    conv_lhs => rw [← List.take_append_drop p B]
    rw [runD_append, runD_cleanEnd (B.take p) hclean]
    simp
  show finD (runD B ([], [], [])) =
    decodeAcc (B.take p) ++ finD (runD (B.drop p) ([], [], []))
  rw [h1, runD_frame, finD_frame]

/-! ### C5: boundary grammar edge cases -/

lemma runD_replicate_lf (n : Nat) (d : Doc) :
    runD (List.replicate n 10) (d, [], []) = (d ++ List.replicate n [], [], []) := by
  induction n generalizing d with
  | zero => simp [runD_nil]
  | succ k ih =>
      rw [List.replicate_succ, runD_cons]
      have hstep : stepD (d, [], []) 10 = (d ++ [[]], [], []) := by
        unfold stepD; simp
      rw [hstep, ih]
      simp [List.replicate_succ]

/-- **C5.** Boundary-grammar edge cases of the sequential decoder: empty
input decodes to the empty document; an input of `n` LF bytes decodes to
`n` empty rows; a missing trailing LF still yields the final cell; a
leading LF pair contributes two leading empty rows for any suffix; and
`"a\n\\\nb\n\n"` decodes to the single row `["a", "", "b"]`. -/
theorem decode_edge_cases :
    decode_bytes_sequential [] = [] ∧
    (∀ n : Nat, decode_bytes_sequential (List.replicate n 10) = List.replicate n []) ∧
    decode_bytes_sequential [97, 10, 98] = [[[97], [98]]] ∧
    (∀ B : List Nat, decode_bytes_sequential (10 :: 10 :: B) =
      [] :: [] :: decode_bytes_sequential B) ∧
    decode_bytes_sequential [97, 10, 92, 10, 98, 10, 10] = [[[97], [], [98]]] := by
  refine ⟨by decide, ?_, by decide, ?_, by decide⟩
  · intro n
    rw [decode_bytes_sequential_eq_acc]
    unfold decodeAcc
    rw [runD_replicate_lf n []]
    rw [finD]
    simp
  · intro B
    rw [decode_bytes_sequential_eq_acc, decode_bytes_sequential_eq_acc]
    unfold decodeAcc
    have h2 : runD [10, 10] ([], [], []) = ([[], []], [], []) := by rfl
    rw [show (10 :: 10 :: B) = [10, 10] ++ B by rfl, runD_append, h2]
    have h3 : runD B ([[], []], [], []) =
        ([[], []] ++ (runD B ([], [], [])).1, (runD B ([], [], [])).2.1,
          (runD B ([], [], [])).2.2) := by
      have := runD_frame B [[], []] [] [] []
      simpa using this
    rw [h3, finD_frame]
    simp

/-! ## Encoder (`encode_bytes`, lib.rs 787-799) and the round-trip law -/

/-- `encode_bytes` (lib.rs 787-799): for each row, each cell is emitted
as `escape_bytes cell` followed by LF, and each row is closed by one
additional LF. -/
def encode_bytes (data : Doc) : List Nat :=
  data.flatMap (fun row => row.flatMap (fun cell => escape_bytes cell ++ [10]) ++ [10])

lemma runD_no_lf (xs : List Nat) (h : 10 ∉ xs) :
    ∀ (d : Doc) (r : Row) (c : Cell), runD xs (d, r, c) = (d, r, c ++ xs) := by
  induction xs with
  | nil => intro d r c; simp [runD_nil]
  | cons b t ih =>
      intro d r c
      have hb : b ≠ 10 := fun hb => h (hb ▸ List.mem_cons_self b t)
      have ht : 10 ∉ t := fun hx => h (List.mem_cons_of_mem _ hx)
      rw [runD_cons]
      have hstep : stepD (d, r, c) b = (d, r, c ++ [b]) := by
        unfold stepD; simp [hb]
      rw [hstep, ih ht]
      simp

/-- Scanning one encoded cell appends the decoded cell to the row. -/
lemma runD_encoded_cell (c : Cell) (d : Doc) (r : Row) :
    runD (escape_bytes c ++ [10]) (d, r, []) = (d, r ++ [c], []) := by
  rw [runD_append, runD_no_lf (escape_bytes c) (escape_bytes_no_lf c) d r []]
  unfold runD List.foldl stepD
  simp [escape_bytes_ne_nil c, unescape_escape c]

/-- Scanning the encoded cells of a row appends the decoded cells. -/
lemma runD_encoded_cells (cells : Row) (d : Doc) (r : Row) :
    runD (cells.flatMap (fun cell => escape_bytes cell ++ [10])) (d, r, []) =
      (d, r ++ cells, []) := by
  induction cells generalizing r with
  | nil => simp [runD_nil]
  | cons c t ih =>
      rw [List.flatMap_cons, runD_append, runD_encoded_cell c d r, ih (r ++ [c])]
      simp

/-- Scanning the encoding of a document from the initial state decodes to
the document with empty row and cell state. -/
lemma runD_encode (D : Doc) :
    ∀ d : Doc, runD (encode_bytes D) (d, [], []) = (d ++ D, [], []) := by
  induction D with
  | nil => intro d; simp [encode_bytes, runD_nil]
  | cons row rest ih =>
      intro d
      unfold encode_bytes
      rw [List.flatMap_cons, runD_append, runD_append, runD_encoded_cells row d []]
      simp only [List.nil_append]
      have hstep : runD [10] (d, row, []) = (d ++ [row], [], []) := by
        show stepD (d, row, []) 10 = (d ++ [row], [], [])
        unfold stepD
        simp
      rw [hstep]
      have := ih (d ++ [row])
      unfold encode_bytes at this
      rw [this]
      simp

/-- Round-trip at the accumulator level. -/
lemma decodeAcc_encode (D : Doc) : decodeAcc (encode_bytes D) = D := by
  unfold decodeAcc
  rw [runD_encode D []]
  rw [finD]
  simp

/-! ## Parallel decoder (`decode_bytes_parallel`, lib.rs 95-140)

The split computation (nominal offsets, `memmem` search for `"\n\n"`,
`split < len` filter, `dedup`) is shared verbatim by
`decode_bytes_parallel`, `index_parallel` and
`decode_projected_parallel`, so it is embedded once. -/

/-- `Vec::dedup`: remove consecutive duplicates. -/
def dedupAdj : List Nat → List Nat
  | [] => []
  | [a] => [a]
  | a :: b :: rest => if a = b then dedupAdj (b :: rest) else a :: dedupAdj (b :: rest)

/-- The `memmem::Finder::new(b"\n\n").find(&input[n..])` search, with the
offset reported as an absolute position: the first `j ≥ n` with
`input[j] = input[j+1] = LF` (the scanned suffix is passed explicitly so
the recursion is structural). -/
def find2Go (input : List Nat) : List Nat → Nat → Option Nat
  | b1 :: b2 :: rest, j =>
      if b1 = 10 ∧ b2 = 10 then some j else find2Go input (b2 :: rest) (j + 1)
  | _, _ => none

/-- Absolute position of the first `"\n\n"` occurrence at or after `n`. -/
def find2From (input : List Nat) (n : Nat) : Option Nat :=
  find2Go input (input.drop n) n

/-- The split points computed by the `for i in 1..num_threads` loop
(lib.rs 109-117): from each nominal offset `i * chunk_size`, the position
two bytes past the next `"\n\n"`, kept only if it is less than the input
length. -/
def innerSplits (input : List Nat) (numThreads chunkSize : Nat) : List Nat :=
  (List.range (numThreads - 1)).filterMap (fun k =>
    match find2From input ((k + 1) * chunkSize) with
    | some m => if m + 2 < input.length then some (m + 2) else none
    | none => none)

/-- The full deduplicated split list `[0, ..., len]` (lib.rs 106-119). -/
def computeSplits (input : List Nat) (numThreads chunkSize : Nat) : List Nat :=
  dedupAdj (0 :: (innerSplits input numThreads chunkSize ++ [input.length]))

/-- `splits.windows(2)` + per-chunk work + in-order concatenation
(lib.rs 127-139); the chunk handler also receives the chunk's base
offset (used by `index_parallel`). -/
def sliceJoinO {α : Type} (g : Nat → List Nat → List α) (B : List Nat) :
    List Nat → List α
  | p :: q :: rest => g p (byteSlice B p q) ++ sliceJoinO g B (q :: rest)
  | _ => []

/-- `decode_bytes_parallel` (lib.rs 95-140), with the rayon worker count
as an explicit parameter. -/
def decode_bytes_parallel (input : List Nat) (numThreads : Nat) : Doc :=
  let chunkSize := input.length / numThreads
  if chunkSize = 0 then decode_bytes_sequential input
  else
    let splits := computeSplits input numThreads chunkSize
    if splits.length ≤ 2 then decode_bytes_sequential input
    else sliceJoinO (fun _ chunk => decode_bytes_sequential chunk) input splits

/-- `decode_bytes` (lib.rs 48-59): empty input decodes to the empty
document, inputs below the 64 KiB threshold decode sequentially, larger
inputs in parallel. -/
def decode_bytes (input : List Nat) (numThreads : Nat) : Doc :=
  if input = [] then []
  else if input.length < 65536 then decode_bytes_sequential input
  else decode_bytes_parallel input numThreads

/-! ### Clean row cuts -/

/-- `p` is a clean cut of `B`: it lies just after an LF that closed a
row (either the LF is the whole prefix's last byte and is preceded by
another LF, or it is the very first byte). -/
def cleanCut (B : List Nat) (p : Nat) : Prop :=
  0 < p ∧ p ≤ B.length ∧ B.getD (p - 1) 0 = 10 ∧
    (p = 1 ∨ B.getD (p - 2) 0 = 10)

lemma take_snoc_getD (B : List Nat) (k : Nat) (hk : k < B.length) :
    B.take (k + 1) = B.take k ++ [B.getD k 0] := by
  rw [List.take_succ]
  congr 1
  rw [List.getD_eq_getElem?_getD]
  rw [List.getElem?_eq_getElem hk]
  rfl

lemma cleanEnd_of_cleanCut (B : List Nat) (p : Nat) (h : cleanCut B p) :
    cleanEnd (B.take p) := by
  obtain ⟨hp0, hpl, hlast, hprev⟩ := h
  have hp1 : p - 1 < B.length := by omega
  refine ⟨B.take (p - 1), ?_, ?_⟩
  · have := take_snoc_getD B (p - 1) hp1
    rw [hlast] at this
    rw [show p - 1 + 1 = p by omega] at this
    exact this
  · by_cases hpeq : p = 1
    · left; rw [hpeq]; rfl
    · right
      have h2 : B.getD (p - 2) 0 = 10 := by
        rcases hprev with h1 | h2
        · exact absurd h1 hpeq
        · exact h2
      have hge2 : 2 ≤ p := by omega
      have hp2 : p - 2 < B.length := by omega
      refine ⟨B.take (p - 2), ?_⟩
      have := take_snoc_getD B (p - 2) hp2
      rw [h2] at this
      rw [show p - 2 + 1 = p - 1 by omega] at this
      exact this

/-- Decoding splits at every clean cut. -/
lemma decodeSeq_split (B : List Nat) (p : Nat) (h : cleanCut B p) :
    decode_bytes_sequential B =
      decode_bytes_sequential (B.take p) ++ decode_bytes_sequential (B.drop p) := by
  rw [decode_bytes_sequential_eq_acc, decode_bytes_sequential_eq_acc,
    decode_bytes_sequential_eq_acc]
  exact decodeAcc_split B p h.2.1 (cleanEnd_of_cleanCut B p h)

/-- Shifting a clean cut across a dropped row-aligned block. -/
lemma cleanCut_shift (B : List Nat) (q x : Nat) (h : cleanCut B x)
    (hq1 : 1 ≤ q) (hqx : q < x) : cleanCut (B.drop q) (x - q) := by
  obtain ⟨hx0, hxl, hlast, hprev⟩ := h
  have hgd : ∀ k, (B.drop q).getD k 0 = B.getD (q + k) 0 := by
    intro k
    rw [List.getD_eq_getElem?_getD, List.getD_eq_getElem?_getD, List.getElem?_drop]
  have hlen : (B.drop q).length = B.length - q := List.length_drop q B
  refine ⟨by omega, by rw [hlen]; omega, ?_, ?_⟩
  · rw [hgd (x - q - 1), show q + (x - q - 1) = x - 1 by omega]
    exact hlast
  · by_cases hxq : x - q = 1
    · left; exact hxq
    · right
      rw [hgd (x - q - 2), show q + (x - q - 2) = x - 2 by omega]
      rcases hprev with h1 | h2
      · omega
      · exact h2

/-! ### The generic chunk-join theorem -/

lemma sliceJoinO_shift {α : Type} (g : List Nat → List α) (B : List Nat) (q : Nat) :
    ∀ ps : List Nat, (∀ x ∈ ps, q ≤ x) →
      sliceJoinO (fun _ c => g c) B ps =
        sliceJoinO (fun _ c => g c) (B.drop q) (ps.map (fun x => x - q)) := by
  intro ps
  induction ps with
  | nil => intro _; rfl
  | cons p rest ih =>
      intro hall
      cases rest with
      | nil => rfl
      | cons p2 rest2 =>
          have hq : q ≤ p := hall p (by simp)
          have ih' := ih (fun x hx => hall x (List.mem_cons_of_mem _ hx))
          simp only [List.map_cons] at ih' ⊢
          show g (byteSlice B p p2) ++ sliceJoinO (fun _ c => g c) B (p2 :: rest2) =
            g (byteSlice (B.drop q) (p - q) (p2 - q)) ++
              sliceJoinO (fun _ c => g c) (B.drop q)
                ((p2 - q) :: List.map (fun x => x - q) rest2)
          rw [← byteSlice_drop B q p p2 hq, ih']

lemma pairwise_lt_shift (q : Nat) (l : List Nat) (h : List.Pairwise (· < ·) l)
    (hall : ∀ x ∈ l, q ≤ x) :
    List.Pairwise (· < ·) (l.map (fun x => x - q)) := by
  rw [List.pairwise_map]
  refine List.Pairwise.imp_of_mem ?_ h
  intro a b ha hb hab
  have := hall a ha
  omega

/-- Generic join theorem: slicing a buffer along `0 :: qs ++ [len]` with
all interior points clean cuts, and concatenating the per-chunk results
of a cut-splitting function `f`, reproduces `f` on the whole buffer. -/
lemma sliceJoin_eq_aux {α : Type} (f : List Nat → List α)
    (hf : ∀ B p, cleanCut B p → f B = f (B.take p) ++ f (B.drop p)) :
    ∀ (n : Nat) (qs : List Nat) (B : List Nat), qs.length = n →
      (∀ q ∈ qs, cleanCut B q ∧ q < B.length) →
      List.Pairwise (· < ·) (0 :: qs ++ [B.length]) →
      sliceJoinO (fun _ c => f c) B (0 :: qs ++ [B.length]) = f B := by
  intro n
  induction n with
  | zero =>
      intro qs B hlen _ _
      have hqs : qs = [] := List.length_eq_zero.mp hlen
      subst hqs
      show f (byteSlice B 0 B.length) ++ sliceJoinO (fun _ c => f c) B [B.length] = f B
      rw [byteSlice_zero_length]
      show f B ++ [] = f B
      simp
  | succ k ih =>
      intro qs B hlen hq hpw
      cases qs with
      | nil => simp at hlen
      | cons q qs =>
          obtain ⟨hqc, hqlen⟩ := hq q (by simp)
          have hq0 : 0 < q := hqc.1
          have htail0 : List.Pairwise (· < ·) ((q :: qs) ++ [B.length]) :=
            List.Pairwise.of_cons hpw
          have htail : List.Pairwise (· < ·) (q :: (qs ++ [B.length])) := by
            rwa [List.cons_append] at htail0
          have hmem_ge : ∀ x ∈ q :: (qs ++ [B.length]), q ≤ x := by
            intro x hx
            rcases List.mem_cons.mp hx with rfl | hx2
            · exact le_rfl
            · have := (List.pairwise_cons.mp htail).1 x hx2
              omega
          show f (byteSlice B 0 q) ++
            sliceJoinO (fun _ c => f c) B (q :: (qs ++ [B.length])) = f B
          have hshift := sliceJoinO_shift f B q (q :: (qs ++ [B.length])) hmem_ge
          simp only [List.map_cons, List.map_append, List.map_nil,
            Nat.sub_self] at hshift
          have hlen' : (B.drop q).length = B.length - q := List.length_drop q B
          have hcond : ∀ x ∈ qs.map (fun y => y - q),
              cleanCut (B.drop q) x ∧ x < (B.drop q).length := by
            intro x hx
            rcases List.mem_map.mp hx with ⟨y, hy, rfl⟩
            obtain ⟨hyc, hylen⟩ := hq y (List.mem_cons_of_mem _ hy)
            have hqy : q < y := (List.pairwise_cons.mp htail).1 y (by simp [hy])
            exact ⟨cleanCut_shift B q y hyc (by omega) hqy, by rw [hlen']; omega⟩
          have hpw' : List.Pairwise (· < ·)
              (0 :: (qs.map (fun y => y - q) ++ [(B.drop q).length])) := by
            have h1 := pairwise_lt_shift q (q :: (qs ++ [B.length])) htail hmem_ge
            simp only [List.map_cons, List.map_append, List.map_nil,
              Nat.sub_self] at h1
            rw [hlen']
            exact h1
          have hmaplen : (qs.map (fun y => y - q)).length = k := by
            rw [List.length_map]
            simpa using hlen
          have hih := ih (qs.map (fun y => y - q)) (B.drop q) hmaplen hcond hpw'
          rw [hlen'] at hih
          rw [hshift]
          simp only [List.cons_append] at hih ⊢
          rw [hih]
          rw [show byteSlice B 0 q = B.take q by simp [byteSlice]]
          exact (hf B q hqc).symm

/-! ### Properties of the `"\n\n"` search and of `dedup` -/

lemma find2Go_some (B : List Nat) :
    ∀ (l : List Nat) (j m : Nat), l = B.drop j → find2Go B l j = some m →
      j ≤ m ∧ m + 1 < B.length ∧ B.getD m 0 = 10 ∧ B.getD (m + 1) 0 = 10 := by
  intro l
  induction l with
  | nil => intro j m _ hfind; exact absurd hfind (by simp [find2Go])
  | cons b1 tail ih =>
      intro j m hl hfind
      cases tail with
      | nil => exact absurd hfind (by simp [find2Go])
      | cons b2 rest =>
          obtain ⟨hj, hb1, hdrop1⟩ := drop_cons_inv B j b1 (b2 :: rest) hl.symm
          obtain ⟨hj1, hb2, _⟩ := drop_cons_inv B (j + 1) b2 rest hdrop1.symm
          rw [find2Go] at hfind
          by_cases hcond : b1 = 10 ∧ b2 = 10
          · rw [if_pos hcond] at hfind
            obtain rfl : j = m := by simpa using hfind
            exact ⟨le_rfl, hj1, by rw [hb1]; exact hcond.1, by rw [hb2]; exact hcond.2⟩
          · rw [if_neg hcond] at hfind
            obtain ⟨h1, h2, h3, h4⟩ := ih (j + 1) m hdrop1 hfind
            exact ⟨by omega, h2, h3, h4⟩

lemma find2Go_min (B : List Nat) :
    ∀ (l : List Nat) (j m : Nat), l = B.drop j → find2Go B l j = some m →
      ∀ k, j ≤ k → k + 1 < B.length → B.getD k 0 = 10 → B.getD (k + 1) 0 = 10 →
        m ≤ k := by
  intro l
  induction l with
  | nil => intro j m _ hfind; exact absurd hfind (by simp [find2Go])
  | cons b1 tail ih =>
      intro j m hl hfind k hjk hk hk1 hk2
      cases tail with
      | nil => exact absurd hfind (by simp [find2Go])
      | cons b2 rest =>
          obtain ⟨hj, hb1, hdrop1⟩ := drop_cons_inv B j b1 (b2 :: rest) hl.symm
          obtain ⟨hj1, hb2, _⟩ := drop_cons_inv B (j + 1) b2 rest hdrop1.symm
          rw [find2Go] at hfind
          by_cases hcond : b1 = 10 ∧ b2 = 10
          · rw [if_pos hcond] at hfind
            obtain rfl : j = m := by simpa using hfind
            exact hjk
          · rw [if_neg hcond] at hfind
            have hne : j ≠ k := by
              intro heq
              subst heq
              exact hcond ⟨by rw [← hk1, hb1], by rw [← hk2, hb2]⟩
            exact ih (j + 1) m hdrop1 hfind k (by omega) hk hk1 hk2

lemma find2Go_exists (B : List Nat) :
    ∀ (l : List Nat) (j k : Nat), l = B.drop j → j ≤ k → k + 1 < B.length →
      B.getD k 0 = 10 → B.getD (k + 1) 0 = 10 →
      ∃ m, find2Go B l j = some m ∧ m ≤ k := by
  intro l
  induction l with
  | nil =>
      intro j k hl hjk hk _ _
      have := congrArg List.length hl
      simp at this
      omega
  | cons b1 tail ih =>
      intro j k hl hjk hk hk1 hk2
      cases tail with
      | nil =>
          obtain ⟨hj, _, hdrop1⟩ := drop_cons_inv B j b1 [] hl.symm
          have := congrArg List.length hdrop1
          simp at this
          omega
      | cons b2 rest =>
          obtain ⟨hj, hb1, hdrop1⟩ := drop_cons_inv B j b1 (b2 :: rest) hl.symm
          obtain ⟨hj1, hb2, _⟩ := drop_cons_inv B (j + 1) b2 rest hdrop1.symm
          rw [find2Go]
          by_cases hcond : b1 = 10 ∧ b2 = 10
          · exact ⟨j, by rw [if_pos hcond], hjk⟩
          · rw [if_neg hcond]
            have hne : j ≠ k := by
              intro hrfl
              subst hrfl
              exact hcond ⟨by rw [← hk1, hb1], by rw [← hk2, hb2]⟩
            exact ih (j + 1) k hdrop1 (by omega) hk hk1 hk2

/-- Every computed inner split is two past an LF pair, below the input
length, and at least 2. -/
lemma innerSplits_mem (B : List Nat) (W cs s : Nat)
    (hs : s ∈ innerSplits B W cs) :
    2 ≤ s ∧ s < B.length ∧ B.getD (s - 2) 0 = 10 ∧ B.getD (s - 1) 0 = 10 := by
  rcases List.mem_filterMap.mp hs with ⟨k, _, hk⟩
  rcases hfind : find2From B ((k + 1) * cs) with _ | m
  · rw [hfind] at hk; simp at hk
  · rw [hfind] at hk
    by_cases hlt : m + 2 < B.length
    · simp only [hlt, if_true, Option.some.injEq] at hk
      subst hk
      obtain ⟨_, _, h3, h4⟩ := find2Go_some B (B.drop ((k + 1) * cs)) ((k + 1) * cs) m
        rfl hfind
      refine ⟨by omega, hlt, ?_, ?_⟩
      · rw [show m + 2 - 2 = m by omega]; exact h3
      · rw [show m + 2 - 1 = m + 1 by omega]; exact h4
    · simp [hlt] at hk

lemma innerSplits_cleanCut (B : List Nat) (W cs s : Nat)
    (hs : s ∈ innerSplits B W cs) : cleanCut B s ∧ s < B.length := by
  obtain ⟨h2, hlen, hm2, hm1⟩ := innerSplits_mem B W cs s hs
  exact ⟨⟨by omega, by omega, hm1, Or.inr hm2⟩, hlen⟩

/-- The inner splits are produced in non-decreasing order. -/
lemma innerSplits_pairwise_le (B : List Nat) (W cs : Nat) :
    List.Pairwise (· ≤ ·) (innerSplits B W cs) := by
  unfold innerSplits
  rw [List.pairwise_filterMap]
  refine List.Pairwise.imp ?_ (List.pairwise_lt_range (W - 1))
  intro k k' hkk s hsk s' hsk'
  simp only [Option.mem_def] at hsk hsk'
  rcases hfind : find2From B ((k + 1) * cs) with _ | m
  · rw [hfind] at hsk; simp at hsk
  · rw [hfind] at hsk
    rcases hfind' : find2From B ((k' + 1) * cs) with _ | m'
    · rw [hfind'] at hsk'; simp at hsk'
    · rw [hfind'] at hsk'
      by_cases hlt : m + 2 < B.length
      · by_cases hlt' : m' + 2 < B.length
        · simp only [hlt, if_true, Option.some.injEq] at hsk
          simp only [hlt', if_true, Option.some.injEq] at hsk'
          subst hsk
          subst hsk'
          obtain ⟨hge', hb', h3', h4'⟩ := find2Go_some B (B.drop ((k' + 1) * cs))
            ((k' + 1) * cs) m' rfl hfind'
          have hnom : (k + 1) * cs ≤ (k' + 1) * cs :=
            Nat.mul_le_mul_right cs (by omega)
          have hmin := find2Go_min B (B.drop ((k + 1) * cs)) ((k + 1) * cs) m rfl
            hfind m' (by omega) hb' h3' h4'
          omega
        · simp [hlt'] at hsk'
      · simp [hlt] at hsk

lemma mem_dedupAdj (l : List Nat) (x : Nat) (h : x ∈ dedupAdj l) : x ∈ l := by
  induction l with
  | nil => exact absurd h (by simp [dedupAdj])
  | cons a tail ih =>
      cases tail with
      | nil => simpa [dedupAdj] using h
      | cons b rest =>
          rw [dedupAdj] at h
          by_cases hab : a = b
          · rw [if_pos hab] at h
            exact List.mem_cons_of_mem a (ih h)
          · rw [if_neg hab] at h
            rcases List.mem_cons.mp h with rfl | h2
            · exact List.mem_cons_self _ _
            · exact List.mem_cons_of_mem a (ih h2)

lemma dedupAdj_head (a : Nat) (l : List Nat) :
    (dedupAdj (a :: l)).head? = some a := by
  induction l generalizing a with
  | nil => rfl
  | cons b rest ih =>
      rw [dedupAdj]
      by_cases hab : a = b
      · rw [if_pos hab, hab]
        exact ih b
      · rw [if_neg hab]
        rfl

lemma chain_lt_dedupAdj (l : List Nat) (h : List.Chain' (· ≤ ·) l) :
    List.Chain' (· < ·) (dedupAdj l) := by
  induction l with
  | nil => simp [dedupAdj]
  | cons a tail ih =>
      cases tail with
      | nil => simp [dedupAdj]
      | cons b rest =>
          obtain ⟨hab, htail⟩ := List.chain'_cons.mp h
          rw [dedupAdj]
          by_cases heq : a = b
          · rw [if_pos heq]
            exact ih htail
          · rw [if_neg heq]
            rw [List.chain'_cons']
            refine ⟨?_, ih htail⟩
            intro y hy
            rw [dedupAdj_head b rest] at hy
            simp at hy
            omega

lemma dedupAdj_append_last (l : List Nat) (b : Nat) (h : ∀ x ∈ l, x < b) :
    dedupAdj (l ++ [b]) = dedupAdj l ++ [b] := by
  induction l with
  | nil => rfl
  | cons a tail ih =>
      cases tail with
      | nil =>
          have hab : a ≠ b := by
            have := h a (by simp)
            omega
          simp [dedupAdj, hab]
      | cons c rest =>
          have ih' := ih (fun x hx => h x (List.mem_cons_of_mem a hx))
          show dedupAdj (a :: c :: (rest ++ [b])) = dedupAdj (a :: c :: rest) ++ [b]
          rw [dedupAdj]
          by_cases hac : a = c
          · rw [if_pos hac]
            rw [show dedupAdj (a :: c :: rest) = dedupAdj (c :: rest) by
              rw [dedupAdj, if_pos hac]]
            exact ih'
          · rw [if_neg hac]
            rw [show dedupAdj (a :: c :: rest) = a :: dedupAdj (c :: rest) by
              rw [dedupAdj, if_neg hac]]
            rw [List.cons_append]
            congr 1

lemma dedupAdj_cons_of_head (a : Nat) (l : List Nat)
    (h : ∀ x, l.head? = some x → a ≠ x) :
    dedupAdj (a :: l) = a :: dedupAdj l := by
  cases l with
  | nil => rfl
  | cons b rest =>
      have hab : a ≠ b := h b rfl
      rw [dedupAdj, if_neg hab]

/-! ### C1: sequential/parallel equivalence -/

/-- Generic form of the chunked parallel runner: any per-chunk function
that splits at clean cuts is unchanged by the split/dedup/join pipeline
(the common body of `decode_bytes_parallel`, `index_parallel` and
`decode_projected_parallel`). -/
lemma parallelRun_eq {α : Type} (f : List Nat → List α)
    (hf : ∀ C p, cleanCut C p → f C = f (C.take p) ++ f (C.drop p))
    (B : List Nat) (W : Nat) :
    (if B.length / W = 0 then f B
     else if (computeSplits B W (B.length / W)).length ≤ 2 then f B
     else sliceJoinO (fun _ c => f c) B (computeSplits B W (B.length / W))) = f B := by
  by_cases hcs : B.length / W = 0
  · simp [hcs]
  · simp only [hcs, if_false]
    have hlenpos : 0 < B.length := by
      by_contra hl
      push_neg at hl
      interval_cases hB : B.length
      · rw [Nat.zero_div] at hcs
        omega
    have hInner := fun s hs => innerSplits_cleanCut B W (B.length / W) s hs
    have hInner2 := fun s hs => innerSplits_mem B W (B.length / W) s hs
    have hshape : computeSplits B W (B.length / W) =
        0 :: (dedupAdj (innerSplits B W (B.length / W)) ++ [B.length]) := by
      unfold computeSplits
      rw [dedupAdj_cons_of_head]
      · rw [dedupAdj_append_last]
        intro x hx
        exact (hInner2 x hx).2.1
      · intro x hx
        cases hin : innerSplits B W (B.length / W) with
        | nil =>
            rw [hin] at hx
            simp at hx
            omega
        | cons i t =>
            rw [hin] at hx
            simp at hx
            have := (hInner2 i (by rw [hin]; simp)).1
            omega
    rw [hshape]
    set qs := dedupAdj (innerSplits B W (B.length / W)) with hqs
    by_cases hlen2 : (0 :: (qs ++ [B.length])).length ≤ 2
    · rw [if_pos hlen2]
    · rw [if_neg hlen2]
      have hqmem : ∀ q ∈ qs, cleanCut B q ∧ q < B.length := by
        intro q hq
        exact hInner q (mem_dedupAdj _ q hq)
      have hqpw : List.Pairwise (· < ·) qs := by
        rw [← List.chain'_iff_pairwise]
        exact chain_lt_dedupAdj _ (List.Pairwise.chain' (innerSplits_pairwise_le B W _))
      have hpw : List.Pairwise (· < ·) (0 :: qs ++ [B.length]) := by
        rw [List.cons_append, List.pairwise_cons]
        constructor
        · intro x hx
          rcases List.mem_append.mp hx with h1 | h2
          · have := (hInner2 x (mem_dedupAdj _ x h1)).1
            omega
          · simp at h2
            omega
        · rw [List.pairwise_append]
          refine ⟨hqpw, by simp, ?_⟩
          intro a ha b hb
          simp at hb
          subst hb
          exact (hqmem a ha).2
      have := sliceJoin_eq_aux f hf qs.length qs B rfl hqmem hpw
      simp only [List.cons_append] at this ⊢
      exact this

/-- The parallel decoder agrees with the sequential decoder for every
input and every worker count. -/
lemma decode_bytes_parallel_eq (B : List Nat) (W : Nat) :
    decode_bytes_parallel B W = decode_bytes_sequential B := by
  unfold decode_bytes_parallel
  exact parallelRun_eq decode_bytes_sequential decodeSeq_split B W

/-- The threshold gate also agrees with the sequential decoder. -/
lemma decode_bytes_eq_seq (B : List Nat) (W : Nat) :
    decode_bytes B W = decode_bytes_sequential B := by
  unfold decode_bytes
  by_cases hB : B = []
  · subst hB; rfl
  · simp only [hB, if_false]
    by_cases hlen : B.length < 65536
    · rw [if_pos hlen]
    · rw [if_neg hlen]
      exact decode_bytes_parallel_eq B W

/-- **C1.** For every byte buffer and every worker count `W ≥ 1`, the
threshold-gated `decode_bytes` and the chunked `decode_bytes_parallel`
both return exactly the document computed by the purely sequential
`decode_bytes_sequential`; the output is independent of the worker count
and of the chunk boundaries. -/
theorem decode_parallel_eq_sequential (B : List Nat) (W : Nat) (hW : 1 ≤ W) :
    decode_bytes B W = decode_bytes_sequential B ∧
    decode_bytes_parallel B W = decode_bytes_sequential B :=
  ⟨decode_bytes_eq_seq B W, decode_bytes_parallel_eq B W⟩

/-- Witness for C1: a concrete nine-byte buffer split across three
workers. -/
theorem decode_parallel_eq_sequential_witness :
    decode_bytes [97, 10, 10, 98, 10, 10, 99, 10, 10] 3 =
      decode_bytes_sequential [97, 10, 10, 98, 10, 10, 99, 10, 10] ∧
    decode_bytes_parallel [97, 10, 10, 98, 10, 10, 99, 10, 10] 3 =
      decode_bytes_sequential [97, 10, 10, 98, 10, 10, 99, 10, 10] :=
  decode_parallel_eq_sequential [97, 10, 10, 98, 10, 10, 99, 10, 10] 3 (by decide)

/-! ### C3: round-trip law -/

/-- **C3.** Decoding an encoded document returns the document, for every
document and every worker count; moreover the encoder emits nothing for
the empty document and exactly one LF for a document of one empty row. -/
theorem decode_encode_roundtrip :
    (∀ (D : Doc) (W : Nat), 1 ≤ W → decode_bytes (encode_bytes D) W = D) ∧
    encode_bytes [] = [] ∧
    encode_bytes [[]] = [10] := by
  refine ⟨?_, rfl, rfl⟩
  intro D W _
  rw [decode_bytes_eq_seq, decode_bytes_sequential_eq_acc]
  exact decodeAcc_encode D

/-- Witness for C3 on a document with empty cells and an empty row. -/
theorem decode_encode_roundtrip_witness :
    decode_bytes (encode_bytes [[[97], []], []]) 2 = [[[97], []], []] :=
  decode_encode_roundtrip.1 [[[97], []], []] 2 (by decide)

/-! ## Lazy structural index (`decode_lazy`, lib.rs 243-429) -/

/-- `CellSpan` (lib.rs 243-247): a half-open byte range of a raw
still-escaped cell (the source field `end` is embedded as `stop`). -/
structure CellSpan where
  start : Nat
  stop : Nat
deriving DecidableEq

/-- The scan loop of `index_sequential` (lib.rs 339-368): identical to
`decodeSeqGo` but recording `CellSpan`s instead of unescaping. -/
def indexGo (input : List Nat) :
    List Nat → Nat → Nat → List (List CellSpan) → List CellSpan → List (List CellSpan)
  | [], _, start, data, row =>
      let row2 := if start < input.length then
          row ++ [CellSpan.mk start input.length]
        else row
      if row2 = [] then data else data ++ [row2]
  | b :: rest, pos, start, data, row =>
      if b = 10 then
        if start < pos then
          indexGo input rest (pos + 1) (pos + 1) data (row ++ [CellSpan.mk start pos])
        else
          indexGo input rest (pos + 1) (pos + 1) (data ++ [row]) []
      else
        indexGo input rest (pos + 1) start data row

/-- `index_sequential` (lib.rs 339-368). -/
def index_sequential (input : List Nat) : List (List CellSpan) :=
  indexGo input input 0 0 [] []

/-- Shift a chunk-local index to absolute positions (lib.rs 408-419). -/
def shiftSpans (off : Nat) (rows : List (List CellSpan)) : List (List CellSpan) :=
  rows.map (fun row => row.map (fun sp => CellSpan.mk (sp.start + off) (sp.stop + off)))

/-- `index_parallel` (lib.rs 371-429): the same split computation as
`decode_bytes_parallel`, with per-chunk indexing and span shifting. -/
def index_parallel (input : List Nat) (numThreads : Nat) : List (List CellSpan) :=
  let chunkSize := input.length / numThreads
  if chunkSize = 0 then index_sequential input
  else
    let splits := computeSplits input numThreads chunkSize
    if splits.length ≤ 2 then index_sequential input
    else sliceJoinO (fun off chunk => shiftSpans off (index_sequential chunk)) input splits

/-- `LazyNsv` (lib.rs 255-259). -/
structure LazyNsv where
  input : List Nat
  rows : List (List CellSpan)

/-- `decode_lazy` (lib.rs 320-335). -/
def decode_lazy (input : List Nat) (numThreads : Nat) : LazyNsv :=
  if input = [] then ⟨input, []⟩
  else if input.length < 65536 then ⟨input, index_sequential input⟩
  else ⟨input, index_parallel input numThreads⟩

/-- `LazyNsv::row_count` (lib.rs 270-272). -/
def LazyNsv.row_count (L : LazyNsv) : Nat := L.rows.length

/-- `LazyNsv::col_count` (lib.rs 276-278). -/
def LazyNsv.col_count (L : LazyNsv) (row : Nat) : Nat :=
  ((L.rows[row]?).map List.length).getD 0

/-- `LazyNsv::get` (lib.rs 282-285): unescape the addressed raw span,
`none` when out of bounds. -/
def LazyNsv.get (L : LazyNsv) (row col : Nat) : Option Cell :=
  (L.rows[row]?).bind fun r =>
    (r[col]?).map fun sp => unescape_bytes (byteSlice L.input sp.start sp.stop)

/-- Unescape the raw bytes addressed by a span. -/
def resolveCell (input : List Nat) (sp : CellSpan) : Cell :=
  unescape_bytes (byteSlice input sp.start sp.stop)

/-! ### The lazy index refines the decoder -/

lemma indexGo_resolve (input : List Nat) :
    ∀ (rest : List Nat) (pos start : Nat) (di : List (List CellSpan)) (ri : List CellSpan),
      (indexGo input rest pos start di ri).map (fun r => r.map (resolveCell input)) =
        decodeSeqGo input rest pos start
          (di.map (fun r => r.map (resolveCell input))) (ri.map (resolveCell input)) := by
  intro rest
  induction rest with
  | nil =>
      intro pos start di ri
      rw [indexGo, decodeSeqGo]
      by_cases hs : start < input.length
      · simp only [hs, if_true]
        have hne : ri ++ [CellSpan.mk start input.length] ≠ [] := by simp
        have hne2 : ri.map (resolveCell input) ++
            [unescape_bytes (byteSlice input start input.length)] ≠ [] := by simp
        rw [if_neg hne, if_neg hne2]
        simp [resolveCell]
      · simp only [hs, if_false]
        by_cases hri : ri = []
        · subst hri; simp
        · have hri2 : ri.map (resolveCell input) ≠ [] := by
            simpa using hri
          rw [if_neg hri, if_neg hri2]
          simp
  | cons b rest ih =>
      intro pos start di ri
      rw [indexGo, decodeSeqGo]
      by_cases hb : b = 10
      · by_cases hsp : start < pos
        · rw [if_pos hb, if_pos hsp, if_pos hb, if_pos hsp, ih]
          simp [resolveCell]
        · rw [if_pos hb, if_neg hsp, if_pos hb, if_neg hsp, ih]
          simp
      · rw [if_neg hb, if_neg hb, ih]

/-- Resolving the sequential index reproduces the sequential decode. -/
lemma index_sequential_resolve (input : List Nat) :
    (index_sequential input).map (fun r => r.map (resolveCell input)) =
      decode_bytes_sequential input := by
  unfold index_sequential decode_bytes_sequential
  rw [indexGo_resolve]
  rfl

lemma indexGo_bounds (input : List Nat) :
    ∀ (rest : List Nat) (pos start : Nat) (di : List (List CellSpan)) (ri : List CellSpan),
      rest = input.drop pos → start ≤ pos →
      (∀ r ∈ di, ∀ sp ∈ r, sp.stop ≤ input.length) →
      (∀ sp ∈ ri, sp.stop ≤ input.length) →
      ∀ r ∈ indexGo input rest pos start di ri, ∀ sp ∈ r, sp.stop ≤ input.length := by
  intro rest
  induction rest with
  | nil =>
      intro pos start di ri _ _ hdi hri
      rw [indexGo]
      by_cases hs : start < input.length
      · simp only [hs, if_true]
        have hne : ri ++ [CellSpan.mk start input.length] ≠ [] := by simp
        rw [if_neg hne]
        intro r hr sp hsp
        rcases List.mem_append.mp hr with h1 | h2
        · exact hdi r h1 sp hsp
        · simp at h2
          subst h2
          rcases List.mem_append.mp hsp with h3 | h4
          · exact hri sp h3
          · simp at h4
            subst h4
            exact le_rfl
      · simp only [hs, if_false]
        by_cases hri0 : ri = []
        · rw [if_pos hri0]
          exact hdi
        · rw [if_neg hri0]
          intro r hr sp hsp
          rcases List.mem_append.mp hr with h1 | h2
          · exact hdi r h1 sp hsp
          · simp at h2
            subst h2
            exact hri sp hsp
  | cons b rest ih =>
      intro pos start di ri hrest hsp hdi hri
      obtain ⟨hpos, _, hdrop⟩ := drop_cons_inv input pos b rest hrest.symm
      rw [indexGo]
      by_cases hb : b = 10
      · by_cases hsp2 : start < pos
        · rw [if_pos hb, if_pos hsp2]
          refine ih (pos + 1) (pos + 1) di
            (ri ++ [CellSpan.mk start pos]) hdrop le_rfl hdi ?_
          intro sp hsp3
          rcases List.mem_append.mp hsp3 with h1 | h2
          · exact hri sp h1
          · simp at h2
            subst h2
            show pos ≤ input.length
            omega
        · rw [if_pos hb, if_neg hsp2]
          refine ih (pos + 1) (pos + 1) (di ++ [ri]) [] hdrop le_rfl ?_ (by simp)
          intro r hr sp hsp3
          rcases List.mem_append.mp hr with h1 | h2
          · exact hdi r h1 sp hsp3
          · simp at h2
            subst h2
            exact hri sp hsp3
      · rw [if_neg hb]
        exact ih (pos + 1) start di ri hdrop (by omega) hdi hri

lemma index_sequential_bounds (input : List Nat) :
    ∀ r ∈ index_sequential input, ∀ sp ∈ r, sp.stop ≤ input.length :=
  indexGo_bounds input input 0 0 [] [] (by simp) le_rfl (by simp) (by simp)

lemma byteSlice_byteSlice (B : List Nat) (p q s e : Nat)
    (he : e ≤ (byteSlice B p q).length) :
    byteSlice (byteSlice B p q) s e = byteSlice B (p + s) (p + e) := by
  have hqp : e ≤ q - p := by
    unfold byteSlice at he
    simp at he
    omega
  unfold byteSlice
  rw [List.drop_take, List.drop_drop]
  rw [List.take_take]
  have h1 : p + e - (p + s) = e - s := by omega
  rw [h1]
  congr 1
  omega

lemma sliceJoinO_map {α β : Type} (f : α → β) (g : Nat → List Nat → List α)
    (B : List Nat) :
    ∀ ps, (sliceJoinO g B ps).map f =
      sliceJoinO (fun off c => (g off c).map f) B ps := by
  intro ps
  induction ps with
  | nil => rfl
  | cons p rest ih =>
      cases rest with
      | nil => rfl
      | cons q rest2 =>
          show ((g p (byteSlice B p q) ++ sliceJoinO g B (q :: rest2)).map f) = _
          rw [List.map_append, ih]
          rfl

lemma sliceJoinO_congr {α : Type} (g1 g2 : Nat → List Nat → List α) (B : List Nat)
    (h : ∀ p q, g1 p (byteSlice B p q) = g2 p (byteSlice B p q)) :
    ∀ ps, sliceJoinO g1 B ps = sliceJoinO g2 B ps := by
  intro ps
  induction ps with
  | nil => rfl
  | cons p rest ih =>
      cases rest with
      | nil => rfl
      | cons q rest2 =>
          show g1 p (byteSlice B p q) ++ sliceJoinO g1 B (q :: rest2) = _
          rw [h p q, ih]
          rfl

/-- Resolving a shifted chunk index against the whole buffer reproduces
the sequential decode of the chunk. -/
lemma chunk_resolve (B : List Nat) (p q : Nat) :
    (shiftSpans p (index_sequential (byteSlice B p q))).map
        (fun r => r.map (resolveCell B)) =
      decode_bytes_sequential (byteSlice B p q) := by
  have hb := index_sequential_bounds (byteSlice B p q)
  rw [← index_sequential_resolve (byteSlice B p q)]
  unfold shiftSpans
  rw [List.map_map]
  apply List.map_congr_left
  intro r hr
  simp only [Function.comp_apply]
  rw [List.map_map]
  apply List.map_congr_left
  intro sp hsp
  simp only [Function.comp_apply, resolveCell]
  rw [show sp.start + p = p + sp.start by omega, show sp.stop + p = p + sp.stop by omega]
  rw [byteSlice_byteSlice B p q sp.start sp.stop (hb r hr sp hsp)]

/-- Resolving the parallel index reproduces the parallel decode. -/
lemma index_parallel_resolve (B : List Nat) (W : Nat) :
    (index_parallel B W).map (fun r => r.map (resolveCell B)) =
      decode_bytes_parallel B W := by
  unfold index_parallel decode_bytes_parallel
  by_cases hcs : B.length / W = 0
  · simp only [hcs, if_true, if_pos rfl]
    exact index_sequential_resolve B
  · simp only [hcs, if_false]
    by_cases hlen2 : (computeSplits B W (B.length / W)).length ≤ 2
    · rw [if_pos hlen2, if_pos hlen2]
      exact index_sequential_resolve B
    · rw [if_neg hlen2, if_neg hlen2]
      rw [sliceJoinO_map]
      exact sliceJoinO_congr _ _ B (fun p q => chunk_resolve B p q) _

/-- Resolving the lazy index reproduces `decode_bytes`. -/
lemma decode_lazy_resolve (B : List Nat) (W : Nat) :
    ((decode_lazy B W).rows).map (fun r => r.map (resolveCell B)) =
      decode_bytes B W := by
  unfold decode_lazy decode_bytes
  by_cases hB : B = []
  · subst hB; rfl
  · simp only [hB, if_false]
    by_cases hlen : B.length < 65536
    · rw [if_pos hlen, if_pos hlen]
      exact index_sequential_resolve B
    · rw [if_neg hlen, if_neg hlen]
      exact index_parallel_resolve B W

/-- The lazy index stores the original input unchanged. -/
lemma decode_lazy_input (B : List Nat) (W : Nat) : (decode_lazy B W).input = B := by
  unfold decode_lazy
  by_cases hB : B = []
  · subst hB; rfl
  · simp only [hB, if_false]
    by_cases hlen : B.length < 65536 <;> simp [hlen]

/-- **C7.** The lazy index agrees with the full decode: `row_count`
equals the number of decoded rows, `col_count r` equals the width of row
`r` (0 out of range), and `get r c` is `some` of cell `(r, c)` exactly
when `(r, c)` is in bounds and `none` otherwise. -/
theorem lazy_index_agrees (B : List Nat) (W : Nat) (hW : 1 ≤ W) :
    (decode_lazy B W).row_count = (decode_bytes B W).length ∧
    (∀ r, (decode_lazy B W).col_count r = ((decode_bytes B W).getD r []).length) ∧
    (∀ r c, (decode_lazy B W).get r c =
      ((decode_bytes B W)[r]?).bind fun row => row[c]?) := by
  have hres := decode_lazy_resolve B W
  have hin := decode_lazy_input B W
  refine ⟨?_, ?_, ?_⟩
  · rw [LazyNsv.row_count, ← hres, List.length_map]
  · intro r
    rw [LazyNsv.col_count, ← hres, List.getD_eq_getElem?_getD, List.getElem?_map]
    cases hrow : (decode_lazy B W).rows[r]? with
    | none => simp
    | some row => simp [List.length_map]
  · intro r c
    rw [LazyNsv.get, ← hres, List.getElem?_map]
    cases hrow : (decode_lazy B W).rows[r]? with
    | none => simp
    | some row =>
        simp only [Option.map_some', Option.some_bind, List.getElem?_map, hin,
          resolveCell]
        rfl

/-- Witness for C7 on the buffer `"a\nb\n\n"`. -/
theorem lazy_index_agrees_witness :
    (decode_lazy [97, 10, 98, 10, 10] 1).row_count =
      (decode_bytes [97, 10, 98, 10, 10] 1).length ∧
    (decode_lazy [97, 10, 98, 10, 10] 1).get 0 1 =
      ((decode_bytes [97, 10, 98, 10, 10] 1)[0]?).bind fun row => row[1]? :=
  ⟨(lazy_index_agrees [97, 10, 98, 10, 10] 1 (by decide)).1,
   (lazy_index_agrees [97, 10, 98, 10, 10] 1 (by decide)).2.2 0 1⟩

/-! ## Projected decode (`decode_bytes_projected`, lib.rs 477-768) -/

/-- The `for (proj_idx, &orig_col) in columns.iter().enumerate()` write
loop of `build_col_map` (lib.rs 480-482). -/
def colMapWrite : List (Option Nat) → List Nat → Nat → List (Option Nat)
  | m, [], _ => m
  | m, c :: cs, i => colMapWrite (m.set c (some i)) cs (i + 1)

/-- `build_col_map` (lib.rs 477-484): `col_map[orig] = projected index`,
with the `usize::MAX` sentinel embedded as `none`. -/
def build_col_map (columns : List Nat) : List (Option Nat) × Nat :=
  let maxCol := columns.foldl max 0
  (colMapWrite (List.replicate (maxCol + 1) none) columns 0, maxCol)

/-- The guarded cell write
`if col_idx <= max_col { if let Some(&proj_idx) = col_map.get(col_idx)
{ if proj_idx != usize::MAX { row[proj_idx] = v } } }`
(lib.rs 685-691). -/
def writeCell (colMap : List (Option Nat)) (maxCol colIdx : Nat) (row : Row)
    (v : Cell) : Row :=
  if colIdx ≤ maxCol then
    match colMap.getD colIdx none with
    | some projIdx => row.set projIdx v
    | none => row
  else row

/-- The scan loop of `decode_projected_sequential` (lib.rs 672-724):
same boundary scan as `decodeSeqGo`, but cells are written into fixed
projected slots and rows always carry `stride` entries. -/
def projGo (input : List Nat) (colMap : List (Option Nat)) (maxCol stride : Nat) :
    List Nat → Nat → Nat → Nat → Bool → Doc → Row → Doc
  | [], _, start, colIdx, rowHas, data, row =>
      if start < input.length then
        data ++ [writeCell colMap maxCol colIdx row
          (unescape_bytes (byteSlice input start input.length))]
      else if rowHas then data ++ [row] else data
  | b :: rest, pos, start, colIdx, rowHas, data, row =>
      if b = 10 then
        if start < pos then
          projGo input colMap maxCol stride rest (pos + 1) (pos + 1) (colIdx + 1) true
            data
            (writeCell colMap maxCol colIdx row
              (unescape_bytes (byteSlice input start pos)))
        else
          if rowHas = true ∨ data ≠ [] ∨ colIdx = 0 then
            projGo input colMap maxCol stride rest (pos + 1) (pos + 1) 0 false
              (data ++ [row]) (List.replicate stride [])
          else
            projGo input colMap maxCol stride rest (pos + 1) (pos + 1) 0 false data row
      else
        projGo input colMap maxCol stride rest (pos + 1) start colIdx rowHas data row

/-- `decode_projected_sequential` (lib.rs 672-724). -/
def decode_projected_sequential (input : List Nat) (columns : List Nat) : Doc :=
  let cm := build_col_map columns
  projGo input cm.1 cm.2 columns.length input 0 0 0 false []
    (List.replicate columns.length [])

/-- `decode_projected_parallel` (lib.rs 727-768): same split computation
as `decode_bytes_parallel`, sequential projected decode per chunk. -/
def decode_projected_parallel (input : List Nat) (columns : List Nat)
    (numThreads : Nat) : Doc :=
  let chunkSize := input.length / numThreads
  if chunkSize = 0 then decode_projected_sequential input columns
  else
    let splits := computeSplits input numThreads chunkSize
    if splits.length ≤ 2 then decode_projected_sequential input columns
    else sliceJoinO (fun _ chunk => decode_projected_sequential chunk columns)
      input splits

/-- `decode_bytes_projected` (lib.rs 659-669). -/
def decode_bytes_projected (input : List Nat) (columns : List Nat)
    (numThreads : Nat) : Doc :=
  if input = [] ∨ columns = [] then []
  else if input.length < 65536 then decode_projected_sequential input columns
  else decode_projected_parallel input columns numThreads

/-- The reference projection of one decoded row: `[row[c] for c in cols]`
with out-of-range indices yielding empty bytes. -/
def projRow (columns : List Nat) (row : Row) : Row :=
  columns.map (fun c => row.getD c [])

/-- Counterexample to C2 as stated: with a duplicated column index the
first duplicated slot is left empty (`build_col_map` keeps only the last
occurrence), and with the empty column list the decoder returns no rows
at all rather than one empty row per decoded row. -/
theorem projected_decode_counterexample :
    decode_bytes_projected [97, 10, 98, 10, 10] [0, 0] 1 ≠
      (decode_bytes [97, 10, 98, 10, 10] 1).map (projRow [0, 0]) ∧
    decode_bytes_projected [97, 10, 10] [] 1 ≠
      (decode_bytes [97, 10, 10] 1).map (projRow []) := by
  decide

/-! ### The projected decoder refines the full decoder on duplicate-free
column lists -/

lemma mem_of_getElem_some {l : List Nat} {k c : Nat} (h : l[k]? = some c) : c ∈ l := by
  obtain ⟨hk, rfl⟩ := List.getElem?_eq_some.mp h
  exact List.getElem_mem hk

lemma bang_isEmpty_true {α : Type} (l : List α) (h : l ≠ []) :
    (!l.isEmpty) = true := by
  cases l with
  | nil => exact absurd rfl h
  | cons a t => rfl

lemma foldl_max_base (l : List Nat) : ∀ a : Nat, a ≤ l.foldl max a := by
  induction l with
  | nil => intro a; exact le_rfl
  | cons b t ih =>
      intro a
      calc a ≤ max a b := le_max_left a b
        _ ≤ t.foldl max (max a b) := ih (max a b)

lemma le_foldl_max (l : List Nat) : ∀ (a x : Nat), x ∈ l → x ≤ l.foldl max a := by
  induction l with
  | nil => intro a x hx; simp at hx
  | cons b t ih =>
      intro a x hx
      rcases List.mem_cons.mp hx with rfl | h2
      · calc x ≤ max a x := le_max_right a x
          _ ≤ t.foldl max (max a x) := foldl_max_base t (max a x)
      · exact ih (max a b) x h2

lemma getD_set_ne (m : List (Option Nat)) (c c' : Nat) (v : Option Nat)
    (h : c' ≠ c) : (m.set c' v).getD c none = m.getD c none := by
  rw [List.getD_eq_getElem?_getD, List.getD_eq_getElem?_getD, List.getElem?_set]
  simp [h]

lemma getD_set_eq (m : List (Option Nat)) (c : Nat) (v : Option Nat)
    (h : c < m.length) : (m.set c v).getD c none = v := by
  rw [List.getD_eq_getElem?_getD, List.getElem?_set]
  simp [h]

lemma colMapWrite_length :
    ∀ (cs : List Nat) (m : List (Option Nat)) (i : Nat),
      (colMapWrite m cs i).length = m.length := by
  intro cs
  induction cs with
  | nil => intro m i; rfl
  | cons c0 t ih =>
      intro m i
      rw [colMapWrite, ih, List.length_set]

lemma colMapWrite_getD_not_mem :
    ∀ (cs : List Nat) (m : List (Option Nat)) (i c : Nat), c ∉ cs →
      (colMapWrite m cs i).getD c none = m.getD c none := by
  intro cs
  induction cs with
  | nil => intro m i c _; rfl
  | cons c0 t ih =>
      intro m i c hc
      have hc0 : c0 ≠ c := fun h => hc (h ▸ List.mem_cons_self c0 t)
      have hct : c ∉ t := fun h => hc (List.mem_cons_of_mem _ h)
      rw [colMapWrite, ih _ _ _ hct, getD_set_ne m c c0 _ hc0]

lemma colMapWrite_getD_nodup :
    ∀ (cs : List Nat) (m : List (Option Nat)) (i k c : Nat), cs.Nodup →
      cs[k]? = some c → c < m.length →
      (colMapWrite m cs i).getD c none = some (i + k) := by
  intro cs
  induction cs with
  | nil => intro m i k c _ hk; simp at hk
  | cons c0 t ih =>
      intro m i k c hnd hk hc
      obtain ⟨hc0t, hndt⟩ := List.nodup_cons.mp hnd
      cases k with
      | zero =>
          simp only [List.getElem?_cons_zero, Option.some.injEq] at hk
          subst hk
          rw [colMapWrite, colMapWrite_getD_not_mem t _ (i + 1) c0 hc0t,
            getD_set_eq m c0 (some i) hc]
          simp
      | succ k2 =>
          simp only [List.getElem?_cons_succ] at hk
          have hc0c : c0 ≠ c := by
            intro h
            subst h
            exact hc0t (mem_of_getElem_some hk)
          rw [colMapWrite, ih _ (i + 1) k2 c hndt hk (by rw [List.length_set]; exact hc)]
          congr 1
          omega

lemma build_col_map_getD_mem (columns : List Nat) (hnd : columns.Nodup)
    (k c : Nat) (hk : columns[k]? = some c) :
    (build_col_map columns).1.getD c none = some k := by
  have hcmem : c ∈ columns := mem_of_getElem_some hk
  have hc : c < (List.replicate (columns.foldl max 0 + 1) (none : Option Nat)).length := by
    rw [List.length_replicate]
    have := le_foldl_max columns 0 c hcmem
    omega
  have h := colMapWrite_getD_nodup columns _ 0 k c hnd hk hc
  simpa [build_col_map] using h

lemma build_col_map_getD_not_mem (columns : List Nat) (c : Nat)
    (hc : c ∉ columns) : (build_col_map columns).1.getD c none = none := by
  show (colMapWrite _ columns 0).getD c none = none
  rw [colMapWrite_getD_not_mem columns _ 0 c hc]
  rw [List.getD_eq_getElem?_getD, List.getElem?_replicate]
  split <;> rfl

lemma getD_append_ne (row : Row) (v : Cell) (c : Nat) (h : c ≠ row.length) :
    (row ++ [v]).getD c [] = row.getD c [] := by
  rw [List.getD_eq_getElem?_getD, List.getD_eq_getElem?_getD]
  by_cases h1 : c < row.length
  · rw [List.getElem?_append_left h1]
  · have h2 : row.length < c := by omega
    rw [List.getElem?_eq_none (l := row) (by omega),
      List.getElem?_eq_none (by simp; omega)]

lemma getD_append_len (row : Row) (v : Cell) :
    (row ++ [v]).getD row.length [] = v := by
  rw [List.getD_eq_getElem?_getD, List.getElem?_concat_length]
  rfl

lemma projRow_nil (columns : List Nat) :
    projRow columns [] = List.replicate columns.length [] := by
  induction columns with
  | nil => rfl
  | cons c t ih =>
      show ([] : Row).getD c [] :: projRow t [] = _
      rw [ih]
      simp [List.replicate_succ]

lemma map_eq_set_of_unique (f g : Nat → Cell) :
    ∀ (columns : List Nat) (k c : Nat) (v : Cell), columns.Nodup →
      columns[k]? = some c → (∀ c2 ∈ columns, c2 ≠ c → g c2 = f c2) → g c = v →
      columns.map g = (columns.map f).set k v := by
  intro columns
  induction columns with
  | nil => intro k c v _ hk; simp at hk
  | cons c0 t ih =>
      intro k c v hnd hk hg hgc
      obtain ⟨hc0t, hndt⟩ := List.nodup_cons.mp hnd
      cases k with
      | zero =>
          simp only [List.getElem?_cons_zero, Option.some.injEq] at hk
          subst hk
          have ht : t.map g = t.map f := by
            apply List.map_congr_left
            intro c2 hc2
            exact hg c2 (List.mem_cons_of_mem _ hc2) (fun h => hc0t (h ▸ hc2))
          show g c0 :: t.map g = (f c0 :: t.map f).set 0 v
          rw [hgc, ht]
          rfl
      | succ k2 =>
          simp only [List.getElem?_cons_succ] at hk
          have hc0c : c0 ≠ c := by
            intro h
            subst h
            exact hc0t (mem_of_getElem_some hk)
          show g c0 :: t.map g = (f c0 :: t.map f).set (k2 + 1) v
          rw [hg c0 (List.mem_cons_self _ _) hc0c,
            ih k2 c v hndt hk (fun c2 h2 => hg c2 (List.mem_cons_of_mem _ h2)) hgc]
          rfl

/-- Appending a cell to a row updates exactly the projected slot of the
row's old width (for duplicate-free column lists). -/
lemma projRow_snoc (columns : List Nat) (hnd : columns.Nodup) (row : Row)
    (v : Cell) :
    projRow columns (row ++ [v]) =
      writeCell (build_col_map columns).1 (build_col_map columns).2 row.length
        (projRow columns row) v := by
  by_cases hc : row.length ∈ columns
  · obtain ⟨k, hk⟩ := List.getElem?_of_mem hc
    have hmap := build_col_map_getD_mem columns hnd k _ hk
    have hle : row.length ≤ (build_col_map columns).2 :=
      le_foldl_max columns 0 _ hc
    unfold writeCell
    rw [if_pos hle, hmap]
    apply map_eq_set_of_unique _ _ columns k row.length v hnd hk
    · intro c2 _ hne
      exact getD_append_ne row v c2 hne
    · exact getD_append_len row v
  · have hmap := build_col_map_getD_not_mem columns _ hc
    have hrow : projRow columns (row ++ [v]) = projRow columns row := by
      apply List.map_congr_left
      intro c2 hc2
      exact getD_append_ne row v c2 (fun h => hc (h ▸ hc2))
    unfold writeCell
    by_cases hle : row.length ≤ (build_col_map columns).2
    · rw [if_pos hle, hmap, hrow]
    · rw [if_neg hle, hrow]

/-- Lockstep simulation: the projected scan is the image of the plain
scan under the reference per-row projection. -/
lemma projGo_lockstep (input : List Nat) (columns : List Nat)
    (hnd : columns.Nodup) :
    ∀ (rest : List Nat) (pos start : Nat) (data : Doc) (row : Row),
      projGo input (build_col_map columns).1 (build_col_map columns).2
          columns.length rest pos start row.length (!row.isEmpty)
          (data.map (projRow columns)) (projRow columns row) =
        (decodeSeqGo input rest pos start data row).map (projRow columns) := by
  intro rest
  induction rest with
  | nil =>
      intro pos start data row
      rw [projGo, decodeSeqGo]
      by_cases hs : start < input.length
      · rw [if_pos hs]
        simp only [hs, if_true]
        have hne : row ++ [unescape_bytes (byteSlice input start input.length)] ≠ [] := by
          simp
        rw [if_neg hne, ← projRow_snoc columns hnd row _, List.map_append]
        rfl
      · rw [if_neg hs]
        simp only [hs, if_false]
        by_cases hrow : row = []
        · subst hrow
          simp
        · rw [if_pos (bang_isEmpty_true row hrow), if_neg hrow, List.map_append]
          rfl
  | cons b rest ih =>
      intro pos start data row
      rw [projGo, decodeSeqGo]
      by_cases hb : b = 10
      · by_cases hsp : start < pos
        · rw [if_pos hb, if_pos hsp, if_pos hb, if_pos hsp]
          have h1 := ih (pos + 1) (pos + 1) data
            (row ++ [unescape_bytes (byteSlice input start pos)])
          rw [← h1, ← projRow_snoc columns hnd row _]
          have h2 : (row ++ [unescape_bytes (byteSlice input start pos)]).length =
              row.length + 1 := by simp
          have h3 : (!(row ++ [unescape_bytes (byteSlice input start pos)]).isEmpty)
              = true := bang_isEmpty_true _ (by simp)
          rw [h2, h3]
        · rw [if_pos hb, if_neg hsp, if_pos hb, if_neg hsp]
          have hcond : (!row.isEmpty) = true ∨
              data.map (projRow columns) ≠ [] ∨ row.length = 0 := by
            by_cases hrow : row = []
            · right; right; rw [hrow]; rfl
            · left; exact bang_isEmpty_true row hrow
          rw [if_pos hcond]
          have h1 := ih (pos + 1) (pos + 1) (data ++ [row]) []
          simp only [List.length_nil, List.isEmpty_nil, Bool.not_true,
            List.map_append] at h1
          rw [← h1, projRow_nil]
          rfl
      · rw [if_neg hb, if_neg hb]
        exact ih (pos + 1) start data row

/-- The projected sequential decoder is the per-row projection of the
full sequential decoder (duplicate-free column lists). -/
lemma decode_projected_sequential_eq (input : List Nat) (columns : List Nat)
    (hnd : columns.Nodup) :
    decode_projected_sequential input columns =
      (decode_bytes_sequential input).map (projRow columns) := by
  unfold decode_projected_sequential decode_bytes_sequential
  have h := projGo_lockstep input columns hnd input 0 0 [] []
  simp only [List.length_nil, List.isEmpty_nil, Bool.not_true, List.map_nil,
    projRow_nil] at h
  exact h

lemma decodeProjSeq_split (columns : List Nat) (hnd : columns.Nodup) :
    ∀ (C : List Nat) (p : Nat), cleanCut C p →
      decode_projected_sequential C columns =
        decode_projected_sequential (C.take p) columns ++
          decode_projected_sequential (C.drop p) columns := by
  intro C p hp
  rw [decode_projected_sequential_eq C _ hnd,
    decode_projected_sequential_eq _ _ hnd, decode_projected_sequential_eq _ _ hnd,
    decodeSeq_split C p hp, List.map_append]

/-- The projected gate agrees with the projection of `decode_bytes` for
nonempty duplicate-free column lists. -/
lemma decode_bytes_projected_eq (B : List Nat) (cols : List Nat) (W : Nat)
    (hnd : cols.Nodup) (hne : cols ≠ []) :
    decode_bytes_projected B cols W = (decode_bytes B W).map (projRow cols) := by
  unfold decode_bytes_projected
  by_cases hB : B = []
  · subst hB
    simp [decode_bytes]
  · have hcond : ¬(B = [] ∨ cols = []) := by
      simp [hB, hne]
    rw [if_neg hcond]
    by_cases hlen : B.length < 65536
    · rw [if_pos hlen, decode_bytes_eq_seq B W,
        decode_projected_sequential_eq B cols hnd]
    · rw [if_neg hlen, decode_bytes_eq_seq B W]
      have h2 := parallelRun_eq (fun C => decode_projected_sequential C cols)
        (decodeProjSeq_split cols hnd) B W
      unfold decode_projected_parallel
      exact h2.trans (decode_projected_sequential_eq B cols hnd)

/-- **C2 (amended).** For every buffer `B`, worker count `W ≥ 1` and
every nonempty list of pairwise-distinct column indices (reordering and
out-of-range indices allowed), `decode_bytes_projected` equals the
reference projection `[[row[c] for c in cols] for row in decode_bytes B]`
with out-of-range indices yielding empty bytes; for the empty column
list the result is the empty list (not one empty row per decoded row),
and with duplicated indices the code deviates from the reference (see
the counterexample). -/
theorem projected_decode_consistency :
    (∀ (B cols : List Nat) (W : Nat), 1 ≤ W → cols.Nodup → cols ≠ [] →
      decode_bytes_projected B cols W = (decode_bytes B W).map (projRow cols)) ∧
    (∀ (B : List Nat) (W : Nat), decode_bytes_projected B [] W = []) := by
  constructor
  · intro B cols W _ hnd hne
    exact decode_bytes_projected_eq B cols W hnd hne
  · intro B W
    simp [decode_bytes_projected]

/-- Witness for the amended C2: reordered plus out-of-range columns. -/
theorem projected_decode_consistency_witness :
    decode_bytes_projected [97, 10, 98, 10, 10] [2, 0] 1 =
      (decode_bytes [97, 10, 98, 10, 10] 1).map (projRow [2, 0]) :=
  projected_decode_consistency.1 [97, 10, 98, 10, 10] [2, 0] 1 (by decide)
    (by decide) (by decide)

/-! ## Validator (`check`, lib.rs 801-881) -/

/-- `WarningKind` (lib.rs 810-818). -/
inductive WarningKind where
  | UnknownEscape (b : Nat)
  | DanglingBackslash
  | NoTerminalLf
deriving DecidableEq

/-- `Warning` (lib.rs 801-808): kind, byte offset, 1-indexed line and
column. -/
structure Warning where
  kind : WarningKind
  pos : Nat
  line : Nat
  col : Nat
deriving DecidableEq

/-- The scan loop of `check` (lib.rs 829-878), iterating `(i, b)` over
the enumerated input, with the post-loop dangling-at-EOF and missing
terminal LF warnings in the base case. -/
def checkGo (input : List Nat) :
    List Nat → Nat → Nat → Nat → Bool → List Warning → List Warning
  | [], _, line, lineStart, escaped, ws =>
      let len := input.length
      let ws2 := if escaped then
          ws ++ [⟨WarningKind.DanglingBackslash, len - 1, line, len - lineStart⟩]
        else ws
      if lineStart ≠ len then
        ws2 ++ [⟨WarningKind.NoTerminalLf, len, line, len - lineStart + 1⟩]
      else ws2
  | b :: rest, i, line, lineStart, escaped, ws =>
      let ws2 := if escaped then
          (if b = 110 ∨ b = 92 then ws
           else if b = 10 then
             ws ++ [⟨WarningKind.DanglingBackslash, i - 1, line, i - lineStart⟩]
           else ws ++ [⟨WarningKind.UnknownEscape b, i - 1, line, i - lineStart⟩])
        else ws
      let escaped2 := if escaped then false else b == 92
      if b = 10 then
        checkGo input rest (i + 1) (line + 1) (i + 1) escaped2 ws2
      else
        checkGo input rest (i + 1) line lineStart escaped2 ws2

/-- `check` (lib.rs 824-881). -/
def check (input : List Nat) : List Warning :=
  if input = [] then [] else checkGo input input 0 1 0 false []

/-! ### Declarative specification of the validator, from the claim:
one warning per anomaly, with byte offset and 1-indexed line/column.
A backslash at position `i - 1` is an escape lead exactly when the run
of consecutive backslashes ending just before it has even length
(`escAt B i` says the byte at `i` is consumed by such a lead);
`UnknownEscape b` fires when the lead is followed by a byte other than
`n`, backslash, or LF, `DanglingBackslash` when it is followed by LF or
by the end of the input, and `NoTerminalLf` when a non-empty input does
not end in LF. -/

/-- The scanner's escape flag before position `i`, declaratively: the
run of backslashes ending at `i - 1` has odd length. -/
def escAt (B : List Nat) (i : Nat) : Bool :=
  ((B.take i).reverse.takeWhile (fun b => b == 92)).length % 2 == 1

/-- 1-indexed line number of position `i`. -/
def lineOf (B : List Nat) (i : Nat) : Nat := 1 + (B.take i).count 10

/-- Byte offset of the start of the line containing position `i`. -/
def lineStartOf (B : List Nat) (i : Nat) : Nat :=
  i - ((B.take i).reverse.takeWhile (fun b => b != 10)).length

/-- The warning (if any) whose escape lead sits at `i - 1`, the escaped
byte at `i`. -/
def leadWarn (B : List Nat) (i : Nat) : Option Warning :=
  if escAt B i then
    if B.getD i 0 = 110 ∨ B.getD i 0 = 92 then none
    else if B.getD i 0 = 10 then
      some ⟨WarningKind.DanglingBackslash, i - 1, lineOf B i, i - lineStartOf B i⟩
    else
      some ⟨WarningKind.UnknownEscape (B.getD i 0), i - 1, lineOf B i,
        i - lineStartOf B i⟩
  else none

/-- Declarative warning list: the in-scan warnings in position order,
then a dangling backslash at the end of input, then the missing
terminal LF. -/
def checkSpec (B : List Nat) : List Warning :=
  if B = [] then []
  else
    (List.range B.length).filterMap (leadWarn B) ++
      ((if escAt B B.length then
          [⟨WarningKind.DanglingBackslash, B.length - 1, lineOf B B.length,
            B.length - lineStartOf B B.length⟩]
        else []) ++
      (if B.getLast? ≠ some 10 then
          [⟨WarningKind.NoTerminalLf, B.length, lineOf B B.length,
            B.length - lineStartOf B B.length + 1⟩]
        else []))

/-! ### Transition lemmas for the declarative quantities -/

lemma takeWhile_length_le (p : Nat → Bool) (l : List Nat) :
    (l.takeWhile p).length ≤ l.length := by
  induction l with
  | nil => simp
  | cons a t ih =>
      rw [List.takeWhile_cons]
      by_cases hp : p a = true
      · rw [if_pos hp]
        simpa using ih
      · rw [if_neg hp]
        simp

lemma escRun_succ (B : List Nat) (i : Nat) (hi : i < B.length) :
    ((B.take (i + 1)).reverse.takeWhile (fun b => b == 92)).length =
      if B.getD i 0 = 92 then
        ((B.take i).reverse.takeWhile (fun b => b == 92)).length + 1
      else 0 := by
  rw [take_snoc_getD B i hi, List.reverse_append]
  simp only [List.reverse_cons, List.reverse_nil, List.nil_append,
    List.singleton_append, List.takeWhile_cons]
  by_cases hb : B.getD i 0 = 92
  · rw [List.getD_eq_getElem?_getD] at hb
    simp [hb]
  · rw [List.getD_eq_getElem?_getD] at hb
    simp [hb]

lemma nonLfRun_succ (B : List Nat) (i : Nat) (hi : i < B.length) :
    ((B.take (i + 1)).reverse.takeWhile (fun b => b != 10)).length =
      if B.getD i 0 = 10 then 0
      else ((B.take i).reverse.takeWhile (fun b => b != 10)).length + 1 := by
  rw [take_snoc_getD B i hi, List.reverse_append]
  simp only [List.reverse_cons, List.reverse_nil, List.nil_append,
    List.singleton_append, List.takeWhile_cons]
  by_cases hb : B.getD i 0 = 10
  · rw [List.getD_eq_getElem?_getD] at hb
    simp [hb]
  · rw [List.getD_eq_getElem?_getD] at hb
    simp [hb]

lemma escAt_zero (B : List Nat) : escAt B 0 = false := rfl

lemma escAt_succ (B : List Nat) (i : Nat) (hi : i < B.length) :
    escAt B (i + 1) = if escAt B i = true then false else (B.getD i 0 == 92) := by
  unfold escAt
  rw [escRun_succ B i hi]
  by_cases hb : B.getD i 0 = 92
  · rw [if_pos hb]
    have h92 : (B.getD i 0 == 92) = true := by rw [hb]; rfl
    rw [h92]
    rcases Nat.mod_two_eq_zero_or_one
        ((B.take i).reverse.takeWhile (fun b => b == 92)).length with hr | hr
    · simp [Nat.add_mod, hr]
    · simp [Nat.add_mod, hr]
  · rw [if_neg hb]
    have h92 : (B.getD i 0 == 92) = false := by
      simp only [beq_eq_false_iff_ne, ne_eq]
      exact hb
    rw [h92]
    split <;> simp

lemma lineOf_zero (B : List Nat) : lineOf B 0 = 1 := rfl

lemma lineOf_succ (B : List Nat) (i : Nat) (hi : i < B.length) :
    lineOf B (i + 1) = if B.getD i 0 = 10 then lineOf B i + 1 else lineOf B i := by
  unfold lineOf
  rw [take_snoc_getD B i hi, List.count_append]
  by_cases hb : B.getD i 0 = 10
  · rw [if_pos hb, hb]
    have h1 : [(10 : Nat)].count 10 = 1 := rfl
    rw [h1]
    omega
  · rw [if_neg hb]
    have hbeq : (B.getD i 0 == 10) = false := by
      simp only [beq_eq_false_iff_ne, ne_eq]
      exact hb
    have h1 : [B.getD i 0].count 10 = 0 := by
      rw [show [B.getD i 0] = B.getD i 0 :: [] from rfl, List.count_cons, hbeq]
      rfl
    rw [h1]
    omega

lemma lineStartOf_zero (B : List Nat) : lineStartOf B 0 = 0 := rfl

lemma lineStartOf_succ (B : List Nat) (i : Nat) (hi : i < B.length) :
    lineStartOf B (i + 1) =
      if B.getD i 0 = 10 then i + 1 else lineStartOf B i := by
  unfold lineStartOf
  rw [nonLfRun_succ B i hi]
  by_cases hb : B.getD i 0 = 10
  · rw [if_pos hb, if_pos hb]
    omega
  · rw [if_neg hb, if_neg hb]
    have hrun : ((B.take i).reverse.takeWhile (fun b => b != 10)).length ≤ i := by
      calc ((B.take i).reverse.takeWhile (fun b => b != 10)).length
          ≤ (B.take i).reverse.length := takeWhile_length_le _ _
        _ = (B.take i).length := List.length_reverse _
        _ ≤ i := by simp [List.length_take]
    omega

lemma lineStartOf_length (B : List Nat) (hB : B ≠ []) :
    (lineStartOf B B.length ≠ B.length) ↔ B.getLast? ≠ some 10 := by
  unfold lineStartOf
  rw [List.take_length]
  cases hrev : B.reverse with
  | nil =>
      exfalso
      apply hB
      have := congrArg List.reverse hrev
      simpa using this
  | cons a t =>
      have hlast : B.getLast? = some a := by
        rw [← List.head?_reverse, hrev]
        rfl
      have hlen : B.length = t.length + 1 := by
        have h2 := congrArg List.length hrev
        simp at h2
        omega
      rw [List.takeWhile_cons, hlast]
      by_cases ha : a = 10
      · have : (a != 10) = false := by simp [ha]
        rw [this, if_neg (by simp)]
        simp [ha]
      · have : (a != 10) = true := by simp [ha]
        rw [this, if_pos rfl]
        have hrun : (t.takeWhile (fun b => b != 10)).length ≤ t.length :=
          takeWhile_length_le _ t
        constructor
        · intro _ h
          exact ha (by simpa using h)
        · intro _
          simp only [List.length_cons]
          omega

/-! ### The scan computes the declarative warning list -/

lemma checkGo_spec (B : List Nat) :
    ∀ (rest : List Nat) (i : Nat) (ws : List Warning),
      rest = B.drop i → i ≤ B.length →
      checkGo B rest i (lineOf B i) (lineStartOf B i) (escAt B i) ws =
        ws ++ ((List.range' i (B.length - i)).filterMap (leadWarn B) ++
          ((if escAt B B.length then
              [⟨WarningKind.DanglingBackslash, B.length - 1, lineOf B B.length,
                B.length - lineStartOf B B.length⟩] else []) ++
          (if lineStartOf B B.length ≠ B.length then
              [⟨WarningKind.NoTerminalLf, B.length, lineOf B B.length,
                B.length - lineStartOf B B.length + 1⟩] else []))) := by
  intro rest
  induction rest with
  | nil =>
      intro i ws hrest hi
      have hieq : i = B.length := by
        have := congrArg List.length hrest
        simp at this
        omega
      subst hieq
      simp only [checkGo, Nat.sub_self, List.range'_zero, List.filterMap_nil,
        List.nil_append]
      by_cases h1 : escAt B B.length = true
      · by_cases h2 : lineStartOf B B.length ≠ B.length
        · simp [h1, h2]
        · simp [h1, h2]
      · have h1' : escAt B B.length = false := by
          cases h : escAt B B.length
          · rfl
          · exact absurd h h1
        by_cases h2 : lineStartOf B B.length ≠ B.length
        · simp [h1', h2]
        · simp [h1', h2]
  | cons b rest ih =>
      intro i ws hrest hi
      obtain ⟨hil, hbi, hdrop⟩ := drop_cons_inv B i b rest hrest.symm
      have hlen : B.length - i = (B.length - (i + 1)) + 1 := by omega
      have hesc1 := escAt_succ B i hil
      have hline1 := lineOf_succ B i hil
      have hls1 := lineStartOf_succ B i hil
      rw [hbi] at hesc1 hline1 hls1
      simp only [checkGo]
      rw [hlen, List.range'_succ, List.filterMap_cons]
      by_cases hesc : escAt B i = true
      · by_cases hn : b = 110 ∨ b = 92
        · have hb10 : b ≠ 10 := by rcases hn with h | h <;> omega
          have hlw : leadWarn B i = none := by
            unfold leadWarn
            rw [hbi, if_pos hesc, if_pos hn]
          have ih' := ih (i + 1) ws hdrop (by omega)
          rw [hesc1, hline1, hls1, if_pos hesc, if_neg hb10, if_neg hb10] at ih'
          simp only [if_pos hesc, if_pos hn, if_neg hb10, hlw, ite_self]
          rw [ih']
        · push_neg at hn
          by_cases hb10 : b = 10
          · have hlw : leadWarn B i =
                some ⟨WarningKind.DanglingBackslash, i - 1, lineOf B i,
                  i - lineStartOf B i⟩ := by
              unfold leadWarn
              rw [hbi, if_pos hesc, if_neg (by omega), if_pos hb10]
            have ih' := ih (i + 1)
              (ws ++ [⟨WarningKind.DanglingBackslash, i - 1, lineOf B i,
                i - lineStartOf B i⟩]) hdrop (by omega)
            rw [hesc1, hline1, hls1, if_pos hesc, if_pos hb10, if_pos hb10] at ih'
            simp only [if_pos hesc, if_neg (by omega : ¬(b = 110 ∨ b = 92)),
              if_pos hb10, hlw]
            rw [ih']
            simp
          · have hlw : leadWarn B i =
                some ⟨WarningKind.UnknownEscape b, i - 1, lineOf B i,
                  i - lineStartOf B i⟩ := by
              unfold leadWarn
              rw [hbi, if_pos hesc, if_neg (by omega), if_neg hb10]
            have ih' := ih (i + 1)
              (ws ++ [⟨WarningKind.UnknownEscape b, i - 1, lineOf B i,
                i - lineStartOf B i⟩]) hdrop (by omega)
            rw [hesc1, hline1, hls1, if_pos hesc, if_neg hb10, if_neg hb10] at ih'
            simp only [if_pos hesc, if_neg (by omega : ¬(b = 110 ∨ b = 92)),
              if_neg hb10, hlw]
            rw [ih']
            simp
      · have hlw : leadWarn B i = none := by
          unfold leadWarn
          rw [if_neg hesc]
        by_cases hb10 : b = 10
        · have ih' := ih (i + 1) ws hdrop (by omega)
          rw [hesc1, hline1, hls1, if_neg hesc, if_pos hb10, if_pos hb10] at ih'
          simp only [if_neg hesc, if_pos hb10, hlw]
          rw [ih']
        · have ih' := ih (i + 1) ws hdrop (by omega)
          rw [hesc1, hline1, hls1, if_neg hesc, if_neg hb10, if_neg hb10] at ih'
          simp only [if_neg hesc, if_neg hb10, hlw]
          rw [ih']

/-- **C6.** The validator computes exactly the declarative warning list:
one warning per anomaly in scan order with byte offset and 1-indexed
line/column — `UnknownEscape b` when an escape-lead backslash is
followed by a byte `b` other than `n`, backslash, or LF;
`DanglingBackslash` when an escape-lead backslash is the final byte of a
line or of the input; `NoTerminalLf` when a non-empty input does not end
in LF — together with the concrete scenarios `check "" = []` and
`check "text\\" = [DanglingBackslash@4 (1:5), NoTerminalLf@5 (1:6)]`. -/
theorem check_eq_spec :
    (∀ B : List Nat, check B = checkSpec B) ∧
    check [] = [] ∧
    check [116, 101, 120, 116, 92] =
      [⟨WarningKind.DanglingBackslash, 4, 1, 5⟩,
       ⟨WarningKind.NoTerminalLf, 5, 1, 6⟩] := by
  refine ⟨?_, rfl, by decide⟩
  intro B
  by_cases hB : B = []
  · subst hB; rfl
  · unfold check checkSpec
    rw [if_neg hB, if_neg hB]
    have h := checkGo_spec B B 0 [] (by simp) (by omega)
    rw [lineOf_zero, lineStartOf_zero] at h
    rw [show escAt B 0 = false from rfl] at h
    rw [h]
    rw [List.nil_append, Nat.sub_zero, ← List.range_eq_range']
    simp only [lineStartOf_length B hB]


/-! ### Accumulator form of the check scan (proof machinery for C10) -/

/-- One step of the check scan on state
`(i, line, lineStart, escaped, ws)`. -/
def stepC : (Nat × Nat × Nat × Bool × List Warning) → Nat →
    (Nat × Nat × Nat × Bool × List Warning)
  | (i, line, lineStart, escaped, ws), b =>
    let ws2 := if escaped then
        (if b = 110 ∨ b = 92 then ws
         else if b = 10 then
           ws ++ [⟨WarningKind.DanglingBackslash, i - 1, line, i - lineStart⟩]
         else ws ++ [⟨WarningKind.UnknownEscape b, i - 1, line, i - lineStart⟩])
      else ws
    let escaped2 := if escaped then false else b == 92
    if b = 10 then (i + 1, line + 1, i + 1, escaped2, ws2)
    else (i + 1, line, lineStart, escaped2, ws2)

def runC (l : List Nat) (s : Nat × Nat × Nat × Bool × List Warning) :
    Nat × Nat × Nat × Bool × List Warning :=
  l.foldl stepC s

/-- The post-loop warnings of `check`. -/
def finC (B : List Nat) : (Nat × Nat × Nat × Bool × List Warning) → List Warning
  | (_, line, lineStart, escaped, ws) =>
      let len := B.length
      let ws2 := if escaped then
          ws ++ [⟨WarningKind.DanglingBackslash, len - 1, line, len - lineStart⟩]
        else ws
      if lineStart ≠ len then
        ws2 ++ [⟨WarningKind.NoTerminalLf, len, line, len - lineStart + 1⟩]
      else ws2

lemma runC_nil (s : Nat × Nat × Nat × Bool × List Warning) : runC [] s = s := rfl

lemma runC_cons (b : Nat) (l : List Nat) (s : Nat × Nat × Nat × Bool × List Warning) :
    runC (b :: l) s = runC l (stepC s b) := rfl

lemma runC_append (l₁ l₂ : List Nat) (s : Nat × Nat × Nat × Bool × List Warning) :
    runC (l₁ ++ l₂) s = runC l₂ (runC l₁ s) :=
  List.foldl_append _ _ _ _

lemma checkGo_eq_runC (B : List Nat) :
    ∀ (rest : List Nat) (i line lineStart : Nat) (escaped : Bool) (ws : List Warning),
      checkGo B rest i line lineStart escaped ws =
        finC B (runC rest (i, line, lineStart, escaped, ws)) := by
  intro rest
  induction rest with
  | nil => intro i line lineStart escaped ws; rfl
  | cons b t ih =>
      intro i line lineStart escaped ws
      rw [runC_cons]
      simp only [checkGo, stepC]
      by_cases hb : b = 10
      · simp only [if_pos hb, ih]
      · simp only [if_neg hb, ih]

/-! ### Part 2 of C10: well-escaped streams produce no warnings -/

/-- Byte lists that consist of complete escape units: ordinary bytes,
`\\` pairs and `\n` pairs. This is the shape of `escape_bytes` output
for non-empty cells. -/
inductive EscapedForm : List Nat → Prop
  | nil : EscapedForm []
  | plain (b : Nat) (rest : List Nat) : b ≠ 92 → b ≠ 10 → EscapedForm rest →
      EscapedForm (b :: rest)
  | pair92 (rest : List Nat) : EscapedForm rest → EscapedForm (92 :: 92 :: rest)
  | pairN (rest : List Nat) : EscapedForm rest → EscapedForm (92 :: 110 :: rest)

lemma escapedForm_of_no_special (l : List Nat) (h : ∀ b ∈ l, b ≠ 92 ∧ b ≠ 10) :
    EscapedForm l := by
  induction l with
  | nil => exact EscapedForm.nil
  | cons b t ih =>
      obtain ⟨h1, h2⟩ := h b (List.mem_cons_self _ _)
      exact EscapedForm.plain b t h1 h2
        (ih (fun x hx => h x (List.mem_cons_of_mem _ hx)))

lemma escapedForm_flatMap (c : List Nat) : EscapedForm (c.flatMap escByte) := by
  induction c with
  | nil => exact EscapedForm.nil
  | cons b t ih =>
      rw [List.flatMap_cons]
      by_cases h92 : b = 92
      · subst h92
        show EscapedForm (92 :: 92 :: t.flatMap escByte)
        exact EscapedForm.pair92 _ ih
      · by_cases h10 : b = 10
        · subst h10
          show EscapedForm (92 :: 110 :: t.flatMap escByte)
          exact EscapedForm.pairN _ ih
        · show EscapedForm (escByte b ++ t.flatMap escByte)
          rw [show escByte b = [b] by simp [escByte, h92, h10]]
          exact EscapedForm.plain b _ h92 h10 ih

lemma escapedForm_escape (c : List Nat) (hc : c ≠ []) :
    EscapedForm (escape_bytes c) := by
  unfold escape_bytes
  rw [if_neg hc]
  by_cases hmem : 10 ∈ c ∨ 92 ∈ c
  · rw [if_pos hmem]
    exact escapedForm_flatMap c
  · rw [if_neg hmem]
    push_neg at hmem
    exact escapedForm_of_no_special c
      (fun b hb => ⟨fun h => hmem.2 (h ▸ hb), fun h => hmem.1 (h ▸ hb)⟩)

/-- Scanning a well-escaped LF-free block: no warnings, flag stays
down, line bookkeeping untouched. -/
lemma runC_escapedForm (l : List Nat) (h : EscapedForm l) :
    ∀ (i line ls : Nat) (ws : List Warning),
      runC l (i, line, ls, false, ws) = (i + l.length, line, ls, false, ws) := by
  induction h with
  | nil => intro i line ls ws; simp [runC_nil]
  | plain b rest h92 h10 _ ih =>
      intro i line ls ws
      rw [runC_cons]
      have hstep : stepC (i, line, ls, false, ws) b = (i + 1, line, ls, false, ws) := by
        simp [stepC, h10, h92]
      rw [hstep, ih]
      have hl : (b :: rest).length = rest.length + 1 := rfl
      rw [hl]
      congr 1
      omega
  | pair92 rest _ ih =>
      intro i line ls ws
      rw [runC_cons, runC_cons]
      have h1 : stepC (i, line, ls, false, ws) 92 = (i + 1, line, ls, true, ws) := by
        simp [stepC]
      have h2 : stepC (i + 1, line, ls, true, ws) 92 = (i + 2, line, ls, false, ws) := by
        simp [stepC]
      rw [h1, h2, ih]
      have hl : (92 :: 92 :: rest).length = rest.length + 2 := rfl
      rw [hl]
      congr 1
      omega
  | pairN rest _ ih =>
      intro i line ls ws
      rw [runC_cons, runC_cons]
      have h1 : stepC (i, line, ls, false, ws) 92 = (i + 1, line, ls, true, ws) := by
        simp [stepC]
      have h2 : stepC (i + 1, line, ls, true, ws) 110 = (i + 2, line, ls, false, ws) := by
        simp [stepC]
      rw [h1, h2, ih]
      have hl : (92 :: 110 :: rest).length = rest.length + 2 := rfl
      rw [hl]
      congr 1
      omega

lemma stepC_lf (i line ls : Nat) (ws : List Warning) :
    stepC (i, line, ls, false, ws) 10 = (i + 1, line + 1, i + 1, false, ws) := by
  simp [stepC]

/-- Scanning one encoded non-empty cell. -/
lemma runC_cell (c : List Nat) (hc : c ≠ []) (i line ls : Nat) (ws : List Warning) :
    runC (escape_bytes c ++ [10]) (i, line, ls, false, ws) =
      (i + (escape_bytes c).length + 1, line + 1, i + (escape_bytes c).length + 1,
        false, ws) := by
  rw [runC_append, runC_escapedForm (escape_bytes c) (escapedForm_escape c hc)]
  rw [show runC [10] (i + (escape_bytes c).length, line, ls, false, ws) =
    stepC (i + (escape_bytes c).length, line, ls, false, ws) 10 from rfl, stepC_lf]

/-- Scanning the encoded cells of a row of non-empty cells. -/
lemma runC_cells (row : Row) (hrow : ∀ c ∈ row, c ≠ []) :
    ∀ (i line ls : Nat) (ws : List Warning),
      ∃ line2 ls2,
        runC (row.flatMap (fun c => escape_bytes c ++ [10])) (i, line, ls, false, ws) =
          (i + (row.flatMap (fun c => escape_bytes c ++ [10])).length, line2, ls2,
            false, ws) ∧ (row = [] → ls2 = ls) := by
  induction row with
  | nil =>
      intro i line ls ws
      exact ⟨line, ls, by simp [runC_nil], fun _ => rfl⟩
  | cons c t ih =>
      intro i line ls ws
      have hc : c ≠ [] := hrow c (List.mem_cons_self _ _)
      rw [List.flatMap_cons, runC_append, runC_cell c hc]
      obtain ⟨line2, ls2, heq, _⟩ := ih (fun x hx => hrow x (List.mem_cons_of_mem _ hx))
        (i + (escape_bytes c).length + 1) (line + 1)
        (i + (escape_bytes c).length + 1) ws
      refine ⟨line2, ls2, ?_, fun h => by simp at h⟩
      rw [heq, List.length_append, List.length_append]
      congr 1
      simp only [List.length_cons, List.length_nil]
      omega

/-- Scanning a whole encoded document of non-empty cells: no warnings,
flag down, and (for a non-empty document) the line start equals the
number of bytes scanned. -/
lemma runC_encode (D : Doc) (hD : ∀ row ∈ D, ∀ c ∈ row, c ≠ []) :
    ∀ (i line ls : Nat) (ws : List Warning),
      ∃ line2 ls2,
        runC (encode_bytes D) (i, line, ls, false, ws) =
          (i + (encode_bytes D).length, line2, ls2, false, ws) ∧
          (D = [] → ls2 = ls) ∧ (D ≠ [] → ls2 = i + (encode_bytes D).length) := by
  induction D with
  | nil =>
      intro i line ls ws
      exact ⟨line, ls, by simp [encode_bytes, runC_nil], fun _ => rfl, fun h => absurd rfl h⟩
  | cons row rest ih =>
      intro i line ls ws
      unfold encode_bytes
      rw [List.flatMap_cons, runC_append, runC_append]
      obtain ⟨line2, ls2, hcells, _⟩ := runC_cells row
        (hD row (List.mem_cons_self _ _)) i line ls ws
      rw [hcells]
      set n1 := (row.flatMap (fun c => escape_bytes c ++ [10])).length with hn1
      rw [show runC [10] (i + n1, line2, ls2, false, ws) =
        stepC (i + n1, line2, ls2, false, ws) 10 from rfl, stepC_lf]
      obtain ⟨line3, ls3, hrest, hnil3, hne3⟩ := ih
        (fun r hr => hD r (List.mem_cons_of_mem _ hr))
        (i + n1 + 1) (line2 + 1) (i + n1 + 1) ws
      have hrest2 := hrest
      unfold encode_bytes at hrest2
      rw [hrest2]
      refine ⟨line3, ls3, ?_, fun h => by simp at h, fun _ => ?_⟩
      · congr 1
        rw [hn1, List.length_append, List.length_append]
        simp only [List.length_cons, List.length_nil]
        omega
      · by_cases hr : rest = []
        · subst hr
          rw [hnil3 rfl, hn1]
          simp only [List.flatMap_nil, List.append_nil, List.length_append,
            List.length_cons, List.length_nil]
          omega
        · rw [hne3 hr]
          unfold encode_bytes
          rw [hn1, List.length_append, List.length_append]
          simp only [List.length_cons, List.length_nil]
          omega

/-- C10 part 2 core: encoded documents of non-empty cells validate
cleanly. -/
lemma check_encode_clean (D : Doc) (hD : ∀ row ∈ D, ∀ c ∈ row, c ≠ []) :
    check (encode_bytes D) = [] := by
  by_cases hDnil : D = []
  · subst hDnil
    rfl
  · have hne : encode_bytes D ≠ [] := by
      cases D with
      | nil => exact absurd rfl hDnil
      | cons row rest =>
          unfold encode_bytes
          rw [List.flatMap_cons]
          intro h
          rcases List.append_eq_nil.mp h with ⟨h1, _⟩
          rcases List.append_eq_nil.mp h1 with ⟨_, h3⟩
          exact List.noConfusion h3
    unfold check
    rw [if_neg hne, checkGo_eq_runC]
    obtain ⟨line2, ls2, hrun, _, hne2⟩ := runC_encode D hD 0 1 0 []
    rw [hrun]
    unfold finC
    rw [hne2 hDnil]
    simp

/-! ### Part 1 of C10: encoded empty cells always warn -/

lemma stepC_ws_grows (s : Nat × Nat × Nat × Bool × List Warning) (b : Nat) :
    ∃ t, (stepC s b).2.2.2.2 = s.2.2.2.2 ++ t := by
  rcases s with ⟨i, line, ls, escaped, ws⟩
  unfold stepC
  by_cases hb : b = 10
  · by_cases he : escaped = true
    · exact ⟨[⟨WarningKind.DanglingBackslash, i - 1, line, i - ls⟩],
        by simp [hb, he]⟩
    · exact ⟨[], by simp [hb, he]⟩
  · by_cases he : escaped = true
    · by_cases hn : b = 110 ∨ b = 92
      · exact ⟨[], by simp [hb, he, hn]⟩
      · exact ⟨[⟨WarningKind.UnknownEscape b, i - 1, line, i - ls⟩],
          by simp [hb, he, hn]⟩
    · exact ⟨[], by simp [hb, he]⟩

lemma runC_ws_grows (l : List Nat) :
    ∀ s : Nat × Nat × Nat × Bool × List Warning,
      ∃ t, (runC l s).2.2.2.2 = s.2.2.2.2 ++ t := by
  induction l with
  | nil => intro s; exact ⟨[], by simp [runC_nil]⟩
  | cons b rest ih =>
      intro s
      rw [runC_cons]
      obtain ⟨t1, h1⟩ := stepC_ws_grows s b
      obtain ⟨t2, h2⟩ := ih (stepC s b)
      exact ⟨t1 ++ t2, by rw [h2, h1, List.append_assoc]⟩

lemma finC_ws_grows (B : List Nat) (s : Nat × Nat × Nat × Bool × List Warning) :
    ∃ t, finC B s = s.2.2.2.2 ++ t := by
  rcases s with ⟨i, line, ls, escaped, ws⟩
  unfold finC
  by_cases he : escaped = true
  · by_cases hl : ls ≠ B.length
    · exact ⟨[⟨WarningKind.DanglingBackslash, B.length - 1, line, B.length - ls⟩,
        ⟨WarningKind.NoTerminalLf, B.length, line, B.length - ls + 1⟩],
        by simp [he, hl]⟩
    · exact ⟨[⟨WarningKind.DanglingBackslash, B.length - 1, line, B.length - ls⟩],
        by simp [he, hl]⟩
  · by_cases hl : ls ≠ B.length
    · exact ⟨[⟨WarningKind.NoTerminalLf, B.length, line, B.length - ls + 1⟩],
        by simp [he, hl]⟩
    · exact ⟨[], by simp [he, hl]⟩

/-- After scanning any block ending in LF, the escape flag is down. -/
lemma runC_escaped_after_lf (l : List Nat) (s : Nat × Nat × Nat × Bool × List Warning) :
    (runC (l ++ [10]) s).2.2.2.1 = false := by
  rw [runC_append]
  rcases runC l s with ⟨i, line, ls, escaped, ws⟩
  show (stepC (i, line, ls, escaped, ws) 10).2.2.2.1 = false
  unfold stepC
  by_cases he : escaped = true <;> simp [he]

lemma units_end_lf {α : Type} (f : α → List Nat) (hf : ∀ x, ∃ Y, f x = Y ++ [10]) :
    ∀ l : List α, l.flatMap f = [] ∨ ∃ Y, l.flatMap f = Y ++ [10] := by
  intro l
  induction l with
  | nil => left; rfl
  | cons a t ih =>
      right
      rw [List.flatMap_cons]
      rcases ih with h | ⟨Y, hY⟩
      · rw [h]
        obtain ⟨Y, hY⟩ := hf a
        exact ⟨Y, by rw [hY]; simp⟩
      · exact ⟨f a ++ Y, by rw [hY, List.append_assoc]⟩

/-- **C10.** Validator versus canonical empty-cell encodings: a document
containing an empty cell always produces a `DanglingBackslash` warning
when its encoding is checked (the one-byte empty-cell marker is
immediately followed by the cell-terminating LF), while a document whose
cells are all non-empty checks cleanly. -/
theorem check_encode_empty_cells :
    (∀ D : Doc, (∃ row ∈ D, [] ∈ row) →
      ∃ w ∈ check (encode_bytes D), w.kind = WarningKind.DanglingBackslash) ∧
    (∀ D : Doc, (∀ row ∈ D, ∀ c ∈ row, c ≠ []) → check (encode_bytes D) = []) := by
  refine ⟨?_, check_encode_clean⟩
  intro D hD
  obtain ⟨row, hrowD, hcell⟩ := hD
  obtain ⟨D1, D2, rfl⟩ := List.append_of_mem hrowD
  obtain ⟨r1, r2, rfl⟩ := List.append_of_mem hcell
  -- the encoding factors around the empty cell's [92, 10]
  have hfact : encode_bytes (D1 ++ (r1 ++ [] :: r2) :: D2) =
      ((D1.flatMap (fun row =>
          row.flatMap (fun cell => escape_bytes cell ++ [10]) ++ [10])) ++
        r1.flatMap (fun cell => escape_bytes cell ++ [10])) ++
      ([92, 10] ++
        (r2.flatMap (fun cell => escape_bytes cell ++ [10]) ++ [10] ++
          D2.flatMap (fun row =>
            row.flatMap (fun cell => escape_bytes cell ++ [10]) ++ [10]))) := by
    unfold encode_bytes
    rw [List.flatMap_append, List.flatMap_cons, List.flatMap_append,
      List.flatMap_cons]
    show _ ++ ((_ ++ (escape_bytes [] ++ [10] ++ _)) ++ [10] ++ _) = _
    rw [show escape_bytes [] = [92] from rfl]
    simp [List.append_assoc]
  have hP : ∀ s : Nat × Nat × Nat × Bool × List Warning, s.2.2.2.1 = false →
      (runC ((D1.flatMap (fun row =>
          row.flatMap (fun cell => escape_bytes cell ++ [10]) ++ [10])) ++
        r1.flatMap (fun cell => escape_bytes cell ++ [10])) s).2.2.2.1 = false := by
    intro s hs
    rw [runC_append]
    have hunits1 := units_end_lf
      (fun row : Row => row.flatMap (fun cell => escape_bytes cell ++ [10]) ++ [10])
      (fun row => ⟨row.flatMap (fun cell => escape_bytes cell ++ [10]), rfl⟩) D1
    have hunits2 := units_end_lf (fun cell : Cell => escape_bytes cell ++ [10])
      (fun cell => ⟨escape_bytes cell, rfl⟩) r1
    have hs1 : (runC (D1.flatMap (fun row =>
        row.flatMap (fun cell => escape_bytes cell ++ [10]) ++ [10])) s).2.2.2.1
          = false := by
      rcases hunits1 with h | ⟨Y, hY⟩
      · rw [h, runC_nil]; exact hs
      · rw [hY]; exact runC_escaped_after_lf Y s
    rcases hunits2 with h | ⟨Y, hY⟩
    · rw [h, runC_nil]; exact hs1
    · rw [hY]; exact runC_escaped_after_lf Y _
  unfold check
  have hne : encode_bytes (D1 ++ (r1 ++ [] :: r2) :: D2) ≠ [] := by
    rw [hfact]
    intro h
    rcases List.append_eq_nil.mp h with ⟨_, h2⟩
    rcases List.append_eq_nil.mp h2 with ⟨h3, _⟩
    exact List.noConfusion h3
  rw [if_neg hne, checkGo_eq_runC, hfact, runC_append]
  set s1 := runC ((D1.flatMap (fun row =>
      row.flatMap (fun cell => escape_bytes cell ++ [10]) ++ [10])) ++
    r1.flatMap (fun cell => escape_bytes cell ++ [10])) (0, 1, 0, false, []) with hs1
  have hesc1 : s1.2.2.2.1 = false := hP (0, 1, 0, false, []) rfl
  rcases hs1def : s1 with ⟨i1, line1, ls1, esc1, ws1⟩
  have hesc1' : esc1 = false := by rw [hs1def] at hesc1; exact hesc1
  subst hesc1'
  rw [show ([92, 10] : List Nat) ++
      (r2.flatMap (fun cell => escape_bytes cell ++ [10]) ++ [10] ++
        D2.flatMap (fun row =>
          row.flatMap (fun cell => escape_bytes cell ++ [10]) ++ [10])) =
      92 :: 10 ::
      (r2.flatMap (fun cell => escape_bytes cell ++ [10]) ++ [10] ++
        D2.flatMap (fun row =>
          row.flatMap (fun cell => escape_bytes cell ++ [10]) ++ [10])) from rfl]
  rw [runC_cons, runC_cons]
  have h92 : stepC (i1, line1, ls1, false, ws1) 92 =
      (i1 + 1, line1, ls1, true, ws1) := by
    simp [stepC]
  have h10 : stepC (i1 + 1, line1, ls1, true, ws1) 10 =
      (i1 + 2, line1 + 1, i1 + 2, false,
        ws1 ++ [⟨WarningKind.DanglingBackslash, i1 + 1 - 1, line1,
          i1 + 1 - ls1⟩]) := by
    simp [stepC]
  rw [h92, h10]
  obtain ⟨t2, ht2⟩ := runC_ws_grows
    ((r2.flatMap (fun cell => escape_bytes cell ++ [10]) ++ [10] ++
      D2.flatMap (fun row =>
        row.flatMap (fun cell => escape_bytes cell ++ [10]) ++ [10])))
    (i1 + 2, line1 + 1, i1 + 2, false,
      ws1 ++ [⟨WarningKind.DanglingBackslash, i1 + 1 - 1, line1, i1 + 1 - ls1⟩])
  obtain ⟨t3, ht3⟩ := finC_ws_grows
    (((D1.flatMap (fun row =>
        row.flatMap (fun cell => escape_bytes cell ++ [10]) ++ [10])) ++
      r1.flatMap (fun cell => escape_bytes cell ++ [10])) ++
      (92 :: 10 ::
        (r2.flatMap (fun cell => escape_bytes cell ++ [10]) ++ [10] ++
          D2.flatMap (fun row =>
            row.flatMap (fun cell => escape_bytes cell ++ [10]) ++ [10]))))
    (runC ((r2.flatMap (fun cell => escape_bytes cell ++ [10]) ++ [10] ++
      D2.flatMap (fun row =>
        row.flatMap (fun cell => escape_bytes cell ++ [10]) ++ [10])))
      (i1 + 2, line1 + 1, i1 + 2, false,
        ws1 ++ [⟨WarningKind.DanglingBackslash, i1 + 1 - 1, line1, i1 + 1 - ls1⟩]))
  rw [ht3, ht2]
  refine ⟨⟨WarningKind.DanglingBackslash, i1 + 1 - 1, line1, i1 + 1 - ls1⟩, ?_, rfl⟩
  simp

/-- Witness for C10: the one-empty-cell document warns, the one-byte
document checks clean. -/
theorem check_encode_empty_cells_witness :
    (∃ w ∈ check (encode_bytes [[[]]]), w.kind = WarningKind.DanglingBackslash) ∧
    check (encode_bytes [[[97]]]) = [] :=
  ⟨check_encode_empty_cells.1 [[[]]] ⟨[[]], by simp, by simp⟩,
   check_encode_empty_cells.2 [[[97]]] (by simp)⟩

/-! ## Text-level decoding (`decode`, lib.rs 29-43)

`decode` converts the input `&str` to its bytes, runs `decode_bytes`,
and converts each resulting cell back to a `String` with
`String::from_utf8_unchecked`.  Strings are modelled by their byte
lists, so both conversions are the identity and the soundness
obligation of the unchecked conversion is that every cell produced
from valid UTF-8 input is again valid UTF-8.  `utf8Valid` is the
standard UTF-8 well-formedness predicate on bytes that `&str`
guarantees for its contents (the byte-pattern table of
`core::str::validations::run_utf8_validation`). -/

def decode (s : List Nat) (numThreads : Nat) : Doc :=
  decode_bytes s numThreads

/-- Admissible second byte after a three-byte lead `b`. -/
def threeOk (b c1 : Nat) : Bool :=
  decide ((b = 224 ∧ 160 ≤ c1 ∧ c1 ≤ 191) ∨
    (225 ≤ b ∧ b ≤ 236 ∧ 128 ≤ c1 ∧ c1 ≤ 191) ∨
    (b = 237 ∧ 128 ≤ c1 ∧ c1 ≤ 159) ∨
    (238 ≤ b ∧ b ≤ 239 ∧ 128 ≤ c1 ∧ c1 ≤ 191))

/-- Admissible second byte after a four-byte lead `b`. -/
def fourOk (b c1 : Nat) : Bool :=
  decide ((b = 240 ∧ 144 ≤ c1 ∧ c1 ≤ 191) ∨
    (241 ≤ b ∧ b ≤ 243 ∧ 128 ≤ c1 ∧ c1 ≤ 191) ∨
    (b = 244 ∧ 128 ≤ c1 ∧ c1 ≤ 143))

/-- The UTF-8 validation scan: `k` is the number of still-expected
continuation bytes and `lo`/`hi` bound the next byte (the first
continuation byte of a three- or four-byte sequence is restricted by
its lead byte; later ones are plain `128..191`). -/
def utf8Go : List Nat → Nat → Nat → Nat → Bool
  | [], k, _, _ => decide (k = 0)
  | b :: rest, 0, _, _ =>
      if b ≤ 127 then utf8Go rest 0 0 0
      else if 194 ≤ b ∧ b ≤ 223 then utf8Go rest 1 128 191
      else if b = 224 then utf8Go rest 2 160 191
      else if 225 ≤ b ∧ b ≤ 236 then utf8Go rest 2 128 191
      else if b = 237 then utf8Go rest 2 128 159
      else if 238 ≤ b ∧ b ≤ 239 then utf8Go rest 2 128 191
      else if b = 240 then utf8Go rest 3 144 191
      else if 241 ≤ b ∧ b ≤ 243 then utf8Go rest 3 128 191
      else if b = 244 then utf8Go rest 3 128 143
      else false
  | b :: rest, k + 1, lo, hi =>
      decide (lo ≤ b ∧ b ≤ hi) && utf8Go rest k 128 191

/-- Standard (strict) UTF-8 validity of a byte list. -/
def utf8Valid (l : List Nat) : Bool := utf8Go l 0 0 0

/-- The byte lists that factor into UTF-8 scalar-value encodings. -/
inductive Utf8Form : List Nat → Prop
  | nil : Utf8Form []
  | ascii (b : Nat) (rest : List Nat) :
      b ≤ 127 → Utf8Form rest → Utf8Form (b :: rest)
  | two (b c1 : Nat) (rest : List Nat) :
      194 ≤ b → b ≤ 223 → 128 ≤ c1 → c1 ≤ 191 → Utf8Form rest →
      Utf8Form (b :: c1 :: rest)
  | three (b c1 c2 : Nat) (rest : List Nat) :
      224 ≤ b → b ≤ 239 → threeOk b c1 = true → 128 ≤ c2 → c2 ≤ 191 →
      Utf8Form rest → Utf8Form (b :: c1 :: c2 :: rest)
  | four (b c1 c2 c3 : Nat) (rest : List Nat) :
      240 ≤ b → b ≤ 244 → fourOk b c1 = true → 128 ≤ c2 → c2 ≤ 191 →
      128 ≤ c3 → c3 ≤ 191 → Utf8Form rest →
      Utf8Form (b :: c1 :: c2 :: c3 :: rest)

lemma threeOk_c1_range (b c1 : Nat) (h : threeOk b c1 = true) :
    128 ≤ c1 ∧ c1 ≤ 191 := by
  simp only [threeOk, decide_eq_true_eq] at h
  rcases h with h | h | h | h <;> omega

lemma fourOk_c1_range (b c1 : Nat) (h : fourOk b c1 = true) :
    128 ≤ c1 ∧ c1 ≤ 191 := by
  simp only [fourOk, decide_eq_true_eq] at h
  rcases h with h | h | h <;> omega

lemma utf8Go_zero (l : List Nat) (a b a2 b2 : Nat) :
    utf8Go l 0 a b = utf8Go l 0 a2 b2 := by
  cases l <;> rfl

lemma utf8Valid_of_form {l : List Nat} (h : Utf8Form l) : utf8Valid l = true := by
  unfold utf8Valid
  induction h with
  | nil => rfl
  | ascii b rest hb _ ih =>
      rw [utf8Go, if_pos hb]
      exact ih
  | two b c1 rest h194 h223 hc1a hc1b _ ih =>
      rw [utf8Go, if_neg (by omega : ¬ b ≤ 127), if_pos ⟨h194, h223⟩, utf8Go,
        utf8Go_zero rest 128 191 0 0]
      simp [hc1a, hc1b, ih]
  | three b c1 c2 rest h224 h239 hok hc2a hc2b _ ih =>
      have hgo : utf8Go (c2 :: rest) 1 128 191 = true := by
        rw [utf8Go, utf8Go_zero rest 128 191 0 0]
        simp [hc2a, hc2b, ih]
      simp only [threeOk, decide_eq_true_eq] at hok
      rw [utf8Go, if_neg (by omega : ¬ b ≤ 127),
        if_neg (by omega : ¬ (194 ≤ b ∧ b ≤ 223))]
      rcases hok with h | h | h | h
      · rw [if_pos h.1, utf8Go]
        simp [h.2.1, h.2.2, hgo]
      · rw [if_neg (by omega : ¬ b = 224), if_pos ⟨h.1, h.2.1⟩, utf8Go]
        simp [h.2.2.1, h.2.2.2, hgo]
      · rw [if_neg (by omega : ¬ b = 224),
          if_neg (by omega : ¬ (225 ≤ b ∧ b ≤ 236)), if_pos h.1, utf8Go]
        simp [h.2.1, h.2.2, hgo]
      · rw [if_neg (by omega : ¬ b = 224),
          if_neg (by omega : ¬ (225 ≤ b ∧ b ≤ 236)),
          if_neg (by omega : ¬ b = 237), if_pos ⟨h.1, h.2.1⟩, utf8Go]
        simp [h.2.2.1, h.2.2.2, hgo]
  | four b c1 c2 c3 rest h240 h244 hok hc2a hc2b hc3a hc3b _ ih =>
      have hgo : utf8Go (c2 :: c3 :: rest) 2 128 191 = true := by
        rw [utf8Go, utf8Go, utf8Go_zero rest 128 191 0 0]
        simp [hc2a, hc2b, hc3a, hc3b, ih]
      simp only [fourOk, decide_eq_true_eq] at hok
      rw [utf8Go, if_neg (by omega : ¬ b ≤ 127),
        if_neg (by omega : ¬ (194 ≤ b ∧ b ≤ 223)),
        if_neg (by omega : ¬ b = 224),
        if_neg (by omega : ¬ (225 ≤ b ∧ b ≤ 236)),
        if_neg (by omega : ¬ b = 237),
        if_neg (by omega : ¬ (238 ≤ b ∧ b ≤ 239))]
      rcases hok with h | h | h
      · rw [if_pos h.1, utf8Go]
        simp [h.2.1, h.2.2, hgo]
      · rw [if_neg (by omega : ¬ b = 240), if_pos ⟨h.1, h.2.1⟩, utf8Go]
        simp [h.2.2.1, h.2.2.2, hgo]
      · rw [if_neg (by omega : ¬ b = 240),
          if_neg (by omega : ¬ (241 ≤ b ∧ b ≤ 243)), if_pos h.1, utf8Go]
        simp [h.2.1, h.2.2, hgo]

lemma utf8Form_of_valid_bounded :
    ∀ (n : Nat) (l : List Nat), l.length ≤ n → utf8Valid l = true → Utf8Form l := by
  intro n
  induction n with
  | zero =>
      intro l hl _
      have : l = [] := List.eq_nil_of_length_eq_zero (Nat.le_zero.mp hl)
      exact this ▸ Utf8Form.nil
  | succ n ih =>
      intro l hl hv
      unfold utf8Valid at hv
      cases l with
      | nil => exact Utf8Form.nil
      | cons b rest =>
          rw [utf8Go] at hv
          by_cases h1 : b ≤ 127
          · rw [if_pos h1] at hv
            refine Utf8Form.ascii b rest h1 (ih rest (by simp at hl; omega) hv)
          · rw [if_neg h1] at hv
            by_cases h2 : 194 ≤ b ∧ b ≤ 223
            · rw [if_pos h2] at hv
              cases rest with
              | nil => simp [utf8Go] at hv
              | cons c1 rest2 =>
                  rw [utf8Go, utf8Go_zero rest2 128 191 0 0] at hv
                  simp only [Bool.and_eq_true, decide_eq_true_eq] at hv
                  obtain ⟨⟨hc1a, hc1b⟩, hv2⟩ := hv
                  exact Utf8Form.two b c1 rest2 h2.1 h2.2 hc1a hc1b
                    (ih rest2 (by simp at hl; omega) hv2)
            · rw [if_neg h2] at hv
              by_cases h3 : 224 ≤ b ∧ b ≤ 239
              · have hv3 : ∃ lo hi, utf8Go rest 2 lo hi = true ∧
                    (∀ c1, lo ≤ c1 → c1 ≤ hi → threeOk b c1 = true) := by
                  by_cases hb4 : b = 224
                  · rw [if_pos hb4] at hv
                    exact ⟨160, 191, hv, fun c1 ha hb => by
                      simp only [threeOk, decide_eq_true_eq]
                      left; exact ⟨hb4, ha, hb⟩⟩
                  · rw [if_neg hb4] at hv
                    by_cases hb5 : 225 ≤ b ∧ b ≤ 236
                    · rw [if_pos hb5] at hv
                      exact ⟨128, 191, hv, fun c1 ha hb => by
                        simp only [threeOk, decide_eq_true_eq]
                        right; left; exact ⟨hb5.1, hb5.2, ha, hb⟩⟩
                    · rw [if_neg hb5] at hv
                      by_cases hb6 : b = 237
                      · rw [if_pos hb6] at hv
                        exact ⟨128, 159, hv, fun c1 ha hb => by
                          simp only [threeOk, decide_eq_true_eq]
                          right; right; left; exact ⟨hb6, ha, hb⟩⟩
                      · rw [if_neg hb6, if_pos (by omega : 238 ≤ b ∧ b ≤ 239)] at hv
                        exact ⟨128, 191, hv, fun c1 ha hb => by
                          simp only [threeOk, decide_eq_true_eq]
                          right; right; right; exact ⟨by omega, by omega, ha, hb⟩⟩
                obtain ⟨lo, hi, hgo, hok⟩ := hv3
                cases rest with
                | nil => simp [utf8Go] at hgo
                | cons c1 rest1 =>
                    rw [utf8Go] at hgo
                    simp only [Bool.and_eq_true, decide_eq_true_eq] at hgo
                    obtain ⟨⟨hc1a, hc1b⟩, hgo2⟩ := hgo
                    cases rest1 with
                    | nil => simp [utf8Go] at hgo2
                    | cons c2 rest2 =>
                        rw [utf8Go, utf8Go_zero rest2 128 191 0 0] at hgo2
                        simp only [Bool.and_eq_true, decide_eq_true_eq] at hgo2
                        obtain ⟨⟨hc2a, hc2b⟩, hv2⟩ := hgo2
                        exact Utf8Form.three b c1 c2 rest2 h3.1 h3.2
                          (hok c1 hc1a hc1b) hc2a hc2b
                          (ih rest2 (by simp at hl; omega) hv2)
              · rw [if_neg (by omega : ¬ b = 224),
                  if_neg (by omega : ¬ (225 ≤ b ∧ b ≤ 236)),
                  if_neg (by omega : ¬ b = 237),
                  if_neg (by omega : ¬ (238 ≤ b ∧ b ≤ 239))] at hv
                by_cases h4 : 240 ≤ b ∧ b ≤ 244
                · have hv4 : ∃ lo hi, utf8Go rest 3 lo hi = true ∧
                      (∀ c1, lo ≤ c1 → c1 ≤ hi → fourOk b c1 = true) := by
                    by_cases hb7 : b = 240
                    · rw [if_pos hb7] at hv
                      exact ⟨144, 191, hv, fun c1 ha hb => by
                        simp only [fourOk, decide_eq_true_eq]
                        left; exact ⟨hb7, ha, hb⟩⟩
                    · rw [if_neg hb7] at hv
                      by_cases hb8 : 241 ≤ b ∧ b ≤ 243
                      · rw [if_pos hb8] at hv
                        exact ⟨128, 191, hv, fun c1 ha hb => by
                          simp only [fourOk, decide_eq_true_eq]
                          right; left; exact ⟨hb8.1, hb8.2, ha, hb⟩⟩
                      · rw [if_neg hb8, if_pos (by omega : b = 244)] at hv
                        exact ⟨128, 143, hv, fun c1 ha hb => by
                          simp only [fourOk, decide_eq_true_eq]
                          right; right; exact ⟨by omega, ha, hb⟩⟩
                  obtain ⟨lo, hi, hgo, hok⟩ := hv4
                  cases rest with
                  | nil => simp [utf8Go] at hgo
                  | cons c1 rest1 =>
                      rw [utf8Go] at hgo
                      simp only [Bool.and_eq_true, decide_eq_true_eq] at hgo
                      obtain ⟨⟨hc1a, hc1b⟩, hgo2⟩ := hgo
                      cases rest1 with
                      | nil => simp [utf8Go] at hgo2
                      | cons c2 rest1' =>
                          rw [utf8Go] at hgo2
                          simp only [Bool.and_eq_true, decide_eq_true_eq] at hgo2
                          obtain ⟨⟨hc2a, hc2b⟩, hgo3⟩ := hgo2
                          cases rest1' with
                          | nil => simp [utf8Go] at hgo3
                          | cons c3 rest2 =>
                              rw [utf8Go, utf8Go_zero rest2 128 191 0 0] at hgo3
                              simp only [Bool.and_eq_true, decide_eq_true_eq] at hgo3
                              obtain ⟨⟨hc3a, hc3b⟩, hv2⟩ := hgo3
                              exact Utf8Form.four b c1 c2 c3 rest2 h4.1 h4.2
                                (hok c1 hc1a hc1b) hc2a hc2b hc3a hc3b
                                (ih rest2 (by simp at hl; omega) hv2)
                · rw [if_neg (by omega : ¬ b = 240),
                    if_neg (by omega : ¬ (241 ≤ b ∧ b ≤ 243)),
                    if_neg (by omega : ¬ b = 244)] at hv
                  simp at hv

lemma utf8Form_of_valid {l : List Nat} (h : utf8Valid l = true) : Utf8Form l :=
  utf8Form_of_valid_bounded l.length l le_rfl h

lemma utf8Form_split {Z : List Nat} (hZ : Utf8Form Z) :
    ∀ X Y, Z = X ++ 10 :: Y → Utf8Form X ∧ Utf8Form Y := by
  induction hZ with
  | nil =>
      intro X Y h
      exact absurd h (by simp)
  | ascii b rest hb hrest ih =>
      intro X Y h
      cases X with
      | nil =>
          simp only [List.nil_append] at h
          injection h with h1 h2
          exact ⟨Utf8Form.nil, h2 ▸ hrest⟩
      | cons x X2 =>
          rw [List.cons_append] at h
          injection h with h1 h2
          obtain ⟨hX, hY⟩ := ih X2 Y h2
          exact ⟨h1 ▸ Utf8Form.ascii b X2 hb hX, hY⟩
  | two b c1 rest h194 h223 hc1a hc1b hrest ih =>
      intro X Y h
      cases X with
      | nil =>
          simp only [List.nil_append] at h
          injection h with h1 h2
          omega
      | cons x X2 =>
          rw [List.cons_append] at h
          injection h with h1 h2
          cases X2 with
          | nil =>
              simp only [List.nil_append] at h2
              injection h2 with h3 h4
              omega
          | cons x2 X3 =>
              rw [List.cons_append] at h2
              injection h2 with h3 h4
              obtain ⟨hX, hY⟩ := ih X3 Y h4
              subst h1
              subst h3
              exact ⟨Utf8Form.two b c1 X3 h194 h223 hc1a hc1b hX, hY⟩
  | three b c1 c2 rest h224 h239 hok hc2a hc2b hrest ih =>
      intro X Y h
      have hc1 := threeOk_c1_range b c1 hok
      cases X with
      | nil =>
          simp only [List.nil_append] at h
          injection h with h1 h2
          omega
      | cons x X2 =>
          rw [List.cons_append] at h
          injection h with h1 h2
          cases X2 with
          | nil =>
              simp only [List.nil_append] at h2
              injection h2 with h3 h4
              omega
          | cons x2 X3 =>
              rw [List.cons_append] at h2
              injection h2 with h3 h4
              cases X3 with
              | nil =>
                  simp only [List.nil_append] at h4
                  injection h4 with h5 h6
                  omega
              | cons x3 X4 =>
                  rw [List.cons_append] at h4
                  injection h4 with h5 h6
                  obtain ⟨hX, hY⟩ := ih X4 Y h6
                  subst h1
                  subst h3
                  subst h5
                  exact ⟨Utf8Form.three b c1 c2 X4 h224 h239 hok hc2a hc2b hX, hY⟩
  | four b c1 c2 c3 rest h240 h244 hok hc2a hc2b hc3a hc3b hrest ih =>
      intro X Y h
      have hc1 := fourOk_c1_range b c1 hok
      cases X with
      | nil =>
          simp only [List.nil_append] at h
          injection h with h1 h2
          omega
      | cons x X2 =>
          rw [List.cons_append] at h
          injection h with h1 h2
          cases X2 with
          | nil =>
              simp only [List.nil_append] at h2
              injection h2 with h3 h4
              omega
          | cons x2 X3 =>
              rw [List.cons_append] at h2
              injection h2 with h3 h4
              cases X3 with
              | nil =>
                  simp only [List.nil_append] at h4
                  injection h4 with h5 h6
                  omega
              | cons x3 X4 =>
                  rw [List.cons_append] at h4
                  injection h4 with h5 h6
                  cases X4 with
                  | nil =>
                      simp only [List.nil_append] at h6
                      injection h6 with h7 h8
                      omega
                  | cons x4 X5 =>
                      rw [List.cons_append] at h6
                      injection h6 with h7 h8
                      obtain ⟨hX, hY⟩ := ih X5 Y h8
                      subst h1
                      subst h3
                      subst h5
                      subst h7
                      exact ⟨Utf8Form.four b c1 c2 c3 X5 h240 h244 hok hc2a hc2b
                        hc3a hc3b hX, hY⟩

lemma utf8Form_take (B : List Nat) (hB : Utf8Form B) (pos : Nat)
    (h2 : pos ≤ B.length)
    (hend : pos = B.length ∨ B.getD pos 0 = 10) : Utf8Form (B.take pos) := by
  rcases hend with he | he
  · rw [he, List.take_length]
    exact hB
  · by_cases hlt : pos < B.length
    · have hsplit : B = B.take pos ++ 10 :: B.drop (pos + 1) := by
        have h3 := List.take_append_drop pos B
        rw [drop_eq_cons_of_lt B pos hlt, he] at h3
        exact h3.symm
      exact (utf8Form_split hB _ _ hsplit).1
    · have hp : pos = B.length := by omega
      rw [hp, List.take_length]
      exact hB

lemma utf8Form_drop_of_lf (B : List Nat) (hB : Utf8Form B) (start : Nat)
    (hs1 : 1 ≤ start) (hlen : start - 1 < B.length)
    (h10 : B.getD (start - 1) 0 = 10) : Utf8Form (B.drop start) := by
  have hsplit : B = B.take (start - 1) ++ 10 :: B.drop start := by
    have h3 := List.take_append_drop (start - 1) B
    rw [drop_eq_cons_of_lt B (start - 1) hlen, h10] at h3
    have h4 : start - 1 + 1 = start := by omega
    rw [h4] at h3
    exact h3.symm
  exact (utf8Form_split hB _ _ hsplit).2

lemma utf8Form_byteSlice (B : List Nat) (hB : Utf8Form B) (start pos : Nat)
    (h1 : start ≤ pos) (h2 : pos ≤ B.length)
    (hstart : start = 0 ∨ B.getD (start - 1) 0 = 10)
    (hend : pos = B.length ∨ B.getD pos 0 = 10) :
    Utf8Form (byteSlice B start pos) := by
  by_cases hs0 : start = 0
  · subst hs0
    have hsl : byteSlice B 0 pos = B.take pos := by
      unfold byteSlice
      simp
    rw [hsl]
    exact utf8Form_take B hB pos h2 hend
  · have h10 : B.getD (start - 1) 0 = 10 := by
      rcases hstart with h | h
      · exact absurd h hs0
      · exact h
    have hs1 : 1 ≤ start := Nat.one_le_iff_ne_zero.mpr hs0
    have hlen : start - 1 < B.length := by omega
    have hY : Utf8Form (B.drop start) := utf8Form_drop_of_lf B hB start hs1 hlen h10
    have hsl : byteSlice B start pos = (B.drop start).take (pos - start) := rfl
    rw [hsl]
    refine utf8Form_take (B.drop start) hY (pos - start) ?_ ?_
    · rw [List.length_drop]
      omega
    · rcases hend with he | he
      · left
        rw [List.length_drop]
        omega
      · by_cases hpl : pos < B.length
        · right
          have hps : pos - start < (B.drop start).length := by
            rw [List.length_drop]
            omega
          rw [List.getD_eq_getElem _ 0 hps, List.getElem_drop]
          have h5 : start + (pos - start) = pos := by omega
          simp only [h5]
          rw [List.getD_eq_getElem B 0 hpl] at he
          exact he
        · left
          rw [List.length_drop]
          omega

lemma unescapeGo_utf8Form {s : List Nat} (hs : Utf8Form s) :
    Utf8Form (unescapeGo s false) ∧ Utf8Form (unescapeGo s true) := by
  induction hs with
  | nil => exact ⟨Utf8Form.nil, Utf8Form.nil⟩
  | ascii b rest hb _ ih =>
      constructor
      · by_cases h92 : b = 92
        · subst h92
          have e : unescapeGo (92 :: rest) false = unescapeGo rest true := by
            simp [unescapeGo]
          rw [e]
          exact ih.2
        · have e : unescapeGo (b :: rest) false = b :: unescapeGo rest false := by
            simp [unescapeGo, h92]
          rw [e]
          exact Utf8Form.ascii b _ hb ih.1
      · by_cases h110 : b = 110
        · subst h110
          have e : unescapeGo (110 :: rest) true = 10 :: unescapeGo rest false := by
            simp [unescapeGo]
          rw [e]
          exact Utf8Form.ascii 10 _ (by omega) ih.1
        · by_cases h92 : b = 92
          · subst h92
            have e : unescapeGo (92 :: rest) true = 92 :: unescapeGo rest false := by
              simp [unescapeGo]
            rw [e]
            exact Utf8Form.ascii 92 _ (by omega) ih.1
          · have e : unescapeGo (b :: rest) true =
                92 :: b :: unescapeGo rest false := by
              simp [unescapeGo, h110, h92]
            rw [e]
            exact Utf8Form.ascii 92 _ (by omega) (Utf8Form.ascii b _ hb ih.1)
  | two b c1 rest h194 h223 hc1a hc1b _ ih =>
      have hb92 : ¬ b = 92 := by omega
      have hb110 : ¬ b = 110 := by omega
      have hc92 : ¬ c1 = 92 := by omega
      have e1 : unescapeGo (c1 :: rest) false = c1 :: unescapeGo rest false := by
        simp [unescapeGo, hc92]
      constructor
      · have e : unescapeGo (b :: c1 :: rest) false =
            b :: unescapeGo (c1 :: rest) false := by
          simp [unescapeGo, hb92]
        rw [e, e1]
        exact Utf8Form.two b c1 _ h194 h223 hc1a hc1b ih.1
      · have e : unescapeGo (b :: c1 :: rest) true =
            92 :: b :: unescapeGo (c1 :: rest) false := by
          simp [unescapeGo, hb110, hb92]
        rw [e, e1]
        exact Utf8Form.ascii 92 _ (by omega)
          (Utf8Form.two b c1 _ h194 h223 hc1a hc1b ih.1)
  | three b c1 c2 rest h224 h239 hok hc2a hc2b _ ih =>
      have hc1r := threeOk_c1_range b c1 hok
      have hb92 : ¬ b = 92 := by omega
      have hb110 : ¬ b = 110 := by omega
      have hc192 : ¬ c1 = 92 := by omega
      have hc292 : ¬ c2 = 92 := by omega
      have e1 : unescapeGo (c1 :: c2 :: rest) false =
          c1 :: c2 :: unescapeGo rest false := by
        simp [unescapeGo, hc192, hc292]
      constructor
      · have e : unescapeGo (b :: c1 :: c2 :: rest) false =
            b :: unescapeGo (c1 :: c2 :: rest) false := by
          simp [unescapeGo, hb92]
        rw [e, e1]
        exact Utf8Form.three b c1 c2 _ h224 h239 hok hc2a hc2b ih.1
      · have e : unescapeGo (b :: c1 :: c2 :: rest) true =
            92 :: b :: unescapeGo (c1 :: c2 :: rest) false := by
          simp [unescapeGo, hb110, hb92]
        rw [e, e1]
        exact Utf8Form.ascii 92 _ (by omega)
          (Utf8Form.three b c1 c2 _ h224 h239 hok hc2a hc2b ih.1)
  | four b c1 c2 c3 rest h240 h244 hok hc2a hc2b hc3a hc3b _ ih =>
      have hc1r := fourOk_c1_range b c1 hok
      have hb92 : ¬ b = 92 := by omega
      have hb110 : ¬ b = 110 := by omega
      have hc192 : ¬ c1 = 92 := by omega
      have hc292 : ¬ c2 = 92 := by omega
      have hc392 : ¬ c3 = 92 := by omega
      have e1 : unescapeGo (c1 :: c2 :: c3 :: rest) false =
          c1 :: c2 :: c3 :: unescapeGo rest false := by
        simp [unescapeGo, hc192, hc292, hc392]
      constructor
      · have e : unescapeGo (b :: c1 :: c2 :: c3 :: rest) false =
            b :: unescapeGo (c1 :: c2 :: c3 :: rest) false := by
          simp [unescapeGo, hb92]
        rw [e, e1]
        exact Utf8Form.four b c1 c2 c3 _ h240 h244 hok hc2a hc2b hc3a hc3b ih.1
      · have e : unescapeGo (b :: c1 :: c2 :: c3 :: rest) true =
            92 :: b :: unescapeGo (c1 :: c2 :: c3 :: rest) false := by
          simp [unescapeGo, hb110, hb92]
        rw [e, e1]
        exact Utf8Form.ascii 92 _ (by omega)
          (Utf8Form.four b c1 c2 c3 _ h240 h244 hok hc2a hc2b hc3a hc3b ih.1)

lemma unescape_bytes_utf8Form {s : List Nat} (hs : Utf8Form s) :
    Utf8Form (unescape_bytes s) := by
  unfold unescape_bytes
  by_cases h1 : s = [92]
  · rw [if_pos h1]
    exact Utf8Form.nil
  · rw [if_neg h1]
    by_cases h2 : 92 ∈ s
    · rw [if_pos h2]
      exact (unescapeGo_utf8Form hs).1
    · rw [if_neg h2]
      exact hs


/-- Every cell the sequential scan produces is a slice between LF
boundaries, hence valid UTF-8 when the input is. -/
lemma decodeSeqGo_utf8 (input : List Nat) (hB : Utf8Form input) :
    ∀ (rem : List Nat) (pos start : Nat) (data : Doc) (row : Row),
      rem = input.drop pos → start ≤ pos → pos ≤ input.length →
      (start = 0 ∨ input.getD (start - 1) 0 = 10) →
      (∀ r ∈ data, ∀ c ∈ r, Utf8Form c) →
      (∀ c ∈ row, Utf8Form c) →
      ∀ r ∈ decodeSeqGo input rem pos start data row, ∀ c ∈ r, Utf8Form c := by
  intro rem
  induction rem with
  | nil =>
      intro pos start data row hrem h1 h2 hst hdata hrow
      rw [decodeSeqGo]
      by_cases hs : start < input.length
      · have hcell : Utf8Form (unescape_bytes (byteSlice input start input.length)) :=
          unescape_bytes_utf8Form
            (utf8Form_byteSlice input hB start input.length (by omega) le_rfl hst
              (Or.inl rfl))
        simp only [hs, if_true]
        by_cases hr2 : row ++ [unescape_bytes (byteSlice input start input.length)] = []
        · rw [if_pos hr2]
          exact hdata
        · rw [if_neg hr2]
          intro r hr c hc
          rcases List.mem_append.mp hr with h | h
          · exact hdata r h c hc
          · rw [List.mem_singleton] at h
            subst h
            rcases List.mem_append.mp hc with h | h
            · exact hrow c h
            · rw [List.mem_singleton] at h
              subst h
              exact hcell
      · simp only [hs, if_false]
        by_cases hr2 : row = []
        · rw [if_pos hr2]
          exact hdata
        · rw [if_neg hr2]
          intro r hr c hc
          rcases List.mem_append.mp hr with h | h
          · exact hdata r h c hc
          · rw [List.mem_singleton] at h
            subst h
            exact hrow c hc
  | cons b rest ih =>
      intro pos start data row hrem h1 h2 hst hdata hrow
      obtain ⟨hpos, hgetb, hrest⟩ := drop_cons_inv input pos b rest hrem.symm
      rw [decodeSeqGo]
      by_cases hb : b = 10
      · rw [if_pos hb]
        by_cases hsp : start < pos
        · rw [if_pos hsp]
          have hcell : Utf8Form (unescape_bytes (byteSlice input start pos)) :=
            unescape_bytes_utf8Form
              (utf8Form_byteSlice input hB start pos (by omega) (by omega) hst
                (Or.inr (by rw [hgetb]; exact hb)))
          refine ih (pos + 1) (pos + 1) data
            (row ++ [unescape_bytes (byteSlice input start pos)]) hrest le_rfl
            (by omega) ?_ hdata ?_
          · right
            have h3 : pos + 1 - 1 = pos := by omega
            rw [h3, hgetb]
            exact hb
          · intro c hc
            rcases List.mem_append.mp hc with h | h
            · exact hrow c h
            · rw [List.mem_singleton] at h
              subst h
              exact hcell
        · rw [if_neg hsp]
          refine ih (pos + 1) (pos + 1) (data ++ [row]) [] hrest le_rfl
            (by omega) ?_ ?_ (by intro c hc; simp at hc)
          · right
            have h3 : pos + 1 - 1 = pos := by omega
            rw [h3, hgetb]
            exact hb
          · intro r hr c hc
            rcases List.mem_append.mp hr with h | h
            · exact hdata r h c hc
            · rw [List.mem_singleton] at h
              subst h
              exact hrow c hc
      · rw [if_neg hb]
        exact ih (pos + 1) start data row hrest (by omega) (by omega) hst hdata hrow

lemma decode_bytes_sequential_utf8 (B : List Nat) (hB : Utf8Form B) :
    ∀ r ∈ decode_bytes_sequential B, ∀ c ∈ r, Utf8Form c := by
  unfold decode_bytes_sequential
  refine decodeSeqGo_utf8 B hB B 0 0 [] [] ?_ le_rfl ?_ (Or.inl rfl) ?_ ?_
  · exact (List.drop_zero B).symm
  · exact Nat.zero_le _
  · intro r hr
    simp at hr
  · intro c hc
    simp at hc

/-- **C9.** The text-level decoder is the byte-level decoder: modelling
strings by their bytes, `decode` equals `decode_bytes` outright, and on
valid-UTF-8 input every cell `decode_bytes` produces is again valid
UTF-8, so the unchecked string conversion inside `decode` is sound. -/
theorem decode_text_equiv :
    (∀ (s : List Nat) (W : Nat), decode s W = decode_bytes s W) ∧
    (∀ (B : List Nat) (W : Nat), utf8Valid B = true →
      ∀ r ∈ decode_bytes B W, ∀ c ∈ r, utf8Valid c = true) := by
  refine ⟨fun s W => rfl, fun B W hv r hr c hc => ?_⟩
  rw [decode_bytes_eq_seq] at hr
  exact utf8Valid_of_form
    (decode_bytes_sequential_utf8 B (utf8Form_of_valid hv) r hr c hc)

/-- Witness for C9 at a concrete two-byte-character input. -/
theorem decode_text_equiv_witness :
    utf8Valid [97, 206, 177, 10, 10] = true ∧
    (∀ r ∈ decode_bytes [97, 206, 177, 10, 10] 1, ∀ c ∈ r, utf8Valid c = true) :=
  ⟨by decide, decode_text_equiv.2 [97, 206, 177, 10, 10] 1 (by decide)⟩

/-! ## Totality (C8)

Checked variants of the byte-level entry points: every operation that
can panic in the source — slice indexing `&input[a..b]`, the `usize`
subtractions in `check`, the division by the worker count, and the
`String::from_utf8(..).unwrap()` inside `encode` — is guarded and
returns `none` exactly when the source operation would fail.  Totality
is the statement that the checked variants always return `some` of the
unchecked result. -/

/-- `&l[a..b]`: defined only for `a ≤ b ≤ l.len()`. -/
def byteSliceChk (l : List Nat) (a b : Nat) : Option (List Nat) :=
  if a ≤ b ∧ b ≤ l.length then some (byteSlice l a b) else none

/-- `decode_bytes_sequential`'s scan with guarded slices. -/
def decodeSeqGoChk (input : List Nat) :
    List Nat → Nat → Nat → Doc → Row → Option Doc
  | [], _, start, data, row =>
      if start < input.length then
        (byteSliceChk input start input.length).map (fun s =>
          let row2 := row ++ [unescape_bytes s]
          if row2 = [] then data else data ++ [row2])
      else some (if row = [] then data else data ++ [row])
  | b :: rest, pos, start, data, row =>
      if b = 10 then
        if start < pos then
          (byteSliceChk input start pos).bind (fun s =>
            decodeSeqGoChk input rest (pos + 1) (pos + 1) data
              (row ++ [unescape_bytes s]))
        else decodeSeqGoChk input rest (pos + 1) (pos + 1) (data ++ [row]) []
      else decodeSeqGoChk input rest (pos + 1) start data row

def decode_bytes_sequentialChk (input : List Nat) : Option Doc :=
  decodeSeqGoChk input input 0 0 [] []

lemma decodeSeqGoChk_eq (input : List Nat) :
    ∀ (rem : List Nat) (pos start : Nat) (data : Doc) (row : Row),
      rem = input.drop pos → start ≤ pos → pos ≤ input.length →
      decodeSeqGoChk input rem pos start data row =
        some (decodeSeqGo input rem pos start data row) := by
  intro rem
  induction rem with
  | nil =>
      intro pos start data row hrem h1 h2
      rw [decodeSeqGoChk, decodeSeqGo]
      by_cases hs : start < input.length
      · have hchk : byteSliceChk input start input.length =
            some (byteSlice input start input.length) := by
          unfold byteSliceChk
          rw [if_pos ⟨by omega, le_rfl⟩]
        simp only [hs, if_true, hchk]
        rfl
      · simp only [hs, if_false]
  | cons b rest ih =>
      intro pos start data row hrem h1 h2
      obtain ⟨hpos, _, hrest⟩ := drop_cons_inv input pos b rest hrem.symm
      rw [decodeSeqGoChk, decodeSeqGo]
      by_cases hb : b = 10
      · rw [if_pos hb, if_pos hb]
        by_cases hsp : start < pos
        · rw [if_pos hsp, if_pos hsp]
          have hchk : byteSliceChk input start pos =
              some (byteSlice input start pos) := by
            unfold byteSliceChk
            rw [if_pos ⟨by omega, by omega⟩]
          rw [hchk, Option.some_bind]
          exact ih (pos + 1) (pos + 1) data
            (row ++ [unescape_bytes (byteSlice input start pos)]) hrest le_rfl
            (by omega)
        · rw [if_neg hsp, if_neg hsp]
          exact ih (pos + 1) (pos + 1) (data ++ [row]) [] hrest le_rfl (by omega)
      · rw [if_neg hb, if_neg hb]
        exact ih (pos + 1) start data row hrest (by omega) (by omega)

lemma decode_bytes_sequentialChk_eq (B : List Nat) :
    decode_bytes_sequentialChk B = some (decode_bytes_sequential B) :=
  decodeSeqGoChk_eq B B 0 0 [] [] (List.drop_zero B).symm le_rfl (Nat.zero_le _)

/-- The split-finding loop with the `&input[nominal..]` slice of each
iteration guarded. -/
def innerSplitsChk (input : List Nat) (numThreads chunkSize : Nat) :
    Option (List Nat) :=
  if (List.range (numThreads - 1)).all
      (fun k => decide ((k + 1) * chunkSize ≤ input.length)) then
    some (innerSplits input numThreads chunkSize)
  else none

/-- `splits.windows(2)` with both window slice bounds guarded. -/
def sliceJoinOChk {α : Type} (g : Nat → List Nat → Option (List α))
    (B : List Nat) : List Nat → Option (List α)
  | p :: q :: rest =>
      if p ≤ q ∧ q ≤ B.length then
        (g p (byteSlice B p q)).bind (fun xs =>
          (sliceJoinOChk g B (q :: rest)).map (fun ys => xs ++ ys))
      else none
  | _ => some []

def decode_bytes_parallelChk (input : List Nat) (numThreads : Nat) : Option Doc :=
  if numThreads = 0 then none
  else
    let chunkSize := input.length / numThreads
    if chunkSize = 0 then decode_bytes_sequentialChk input
    else
      (innerSplitsChk input numThreads chunkSize).bind (fun inner =>
        let splits := dedupAdj (0 :: (inner ++ [input.length]))
        if splits.length ≤ 2 then decode_bytes_sequentialChk input
        else sliceJoinOChk (fun _ chunk => decode_bytes_sequentialChk chunk)
          input splits)

def decode_bytesChk (input : List Nat) (numThreads : Nat) : Option Doc :=
  if input = [] then some []
  else if input.length < 65536 then decode_bytes_sequentialChk input
  else decode_bytes_parallelChk input numThreads

lemma innerSplitsChk_eq (B : List Nat) (W : Nat) :
    innerSplitsChk B W (B.length / W) = some (innerSplits B W (B.length / W)) := by
  unfold innerSplitsChk
  rw [if_pos]
  rw [List.all_eq_true]
  intro k hk
  rw [decide_eq_true_eq]
  rw [List.mem_range] at hk
  have h1 : k + 1 ≤ W := by omega
  calc (k + 1) * (B.length / W) ≤ W * (B.length / W) :=
        Nat.mul_le_mul_right _ h1
    _ = B.length / W * W := Nat.mul_comm _ _
    _ ≤ B.length := Nat.div_mul_le_self _ _

lemma sliceJoinOChk_eq {α : Type} (g : Nat → List Nat → Option (List α))
    (g2 : Nat → List Nat → List α) (B : List Nat)
    (hg : ∀ p c, g p c = some (g2 p c)) :
    ∀ qs : List Nat, List.Pairwise (· < ·) qs → (∀ q ∈ qs, q ≤ B.length) →
      sliceJoinOChk g B qs = some (sliceJoinO g2 B qs) := by
  intro qs
  induction qs with
  | nil => intro _ _; rfl
  | cons p tail ih =>
      cases tail with
      | nil => intro _ _; rfl
      | cons q rest =>
          intro hpw hmem
          rw [sliceJoinOChk, sliceJoinO]
          have hpq : p < q := by
            rw [List.pairwise_cons] at hpw
            exact hpw.1 q (by simp)
          rw [if_pos ⟨by omega, hmem q (by simp)⟩, hg, Option.some_bind]
          have htail := ih (by rw [List.pairwise_cons] at hpw; exact hpw.2)
            (fun x hx => hmem x (List.mem_cons_of_mem _ hx))
          rw [htail]
          rfl

/-- Sortedness and bounds of the computed split list. -/
lemma computeSplits_facts (B : List Nat) (W : Nat) (hcs : B.length / W ≠ 0) :
    List.Pairwise (· < ·) (computeSplits B W (B.length / W)) ∧
    ∀ q ∈ computeSplits B W (B.length / W), q ≤ B.length := by
  have hlenpos : 0 < B.length := by
    by_contra hl
    push_neg at hl
    have h0 : B.length = 0 := by omega
    rw [h0, Nat.zero_div] at hcs
    omega
  have hInner2 := fun s hs => innerSplits_mem B W (B.length / W) s hs
  have hshape : computeSplits B W (B.length / W) =
      0 :: (dedupAdj (innerSplits B W (B.length / W)) ++ [B.length]) := by
    unfold computeSplits
    rw [dedupAdj_cons_of_head]
    · rw [dedupAdj_append_last]
      intro x hx
      exact (hInner2 x hx).2.1
    · intro x hx
      cases hin : innerSplits B W (B.length / W) with
      | nil =>
          rw [hin] at hx
          simp at hx
          omega
      | cons i t =>
          rw [hin] at hx
          simp at hx
          have := (hInner2 i (by rw [hin]; simp)).1
          omega
  rw [hshape]
  set qs := dedupAdj (innerSplits B W (B.length / W)) with hqs
  have hqmem : ∀ q ∈ qs, 2 ≤ q ∧ q < B.length := by
    intro q hq
    have := hInner2 q (mem_dedupAdj _ q hq)
    exact ⟨this.1, this.2.1⟩
  have hqpw : List.Pairwise (· < ·) qs := by
    rw [← List.chain'_iff_pairwise]
    exact chain_lt_dedupAdj _ (List.Pairwise.chain' (innerSplits_pairwise_le B W _))
  constructor
  · rw [List.pairwise_cons]
    constructor
    · intro x hx
      rcases List.mem_append.mp hx with h1 | h2
      · have := hqmem x h1
        omega
      · simp at h2
        omega
    · rw [List.pairwise_append]
      refine ⟨hqpw, by simp, ?_⟩
      intro a ha b hb
      simp at hb
      subst hb
      exact (hqmem a ha).2
  · intro x hx
    rcases List.mem_cons.mp hx with h | h
    · omega
    · rcases List.mem_append.mp h with h1 | h2
      · have := hqmem x h1
        omega
      · simp at h2
        omega

lemma decode_bytes_parallelChk_eq (B : List Nat) (W : Nat) (hW : 1 ≤ W) :
    decode_bytes_parallelChk B W = some (decode_bytes_parallel B W) := by
  unfold decode_bytes_parallelChk decode_bytes_parallel
  rw [if_neg (by omega : ¬ W = 0)]
  simp only []
  by_cases hcs : B.length / W = 0
  · rw [if_pos hcs, if_pos hcs]
    exact decode_bytes_sequentialChk_eq B
  · rw [if_neg hcs, if_neg hcs, innerSplitsChk_eq B W, Option.some_bind]
    obtain ⟨hpw, hmem⟩ := computeSplits_facts B W hcs
    have hjoin := sliceJoinOChk_eq (fun _ chunk => decode_bytes_sequentialChk chunk)
      (fun _ chunk => decode_bytes_sequential chunk) B
      (fun p c => decode_bytes_sequentialChk_eq c)
      (computeSplits B W (B.length / W)) hpw hmem
    unfold computeSplits at hjoin ⊢
    by_cases hlen2 :
        (dedupAdj (0 :: (innerSplits B W (B.length / W) ++ [B.length]))).length ≤ 2
    · rw [if_pos hlen2, if_pos hlen2]
      exact decode_bytes_sequentialChk_eq B
    · rw [if_neg hlen2, if_neg hlen2]
      exact hjoin

lemma decode_bytesChk_eq (B : List Nat) (W : Nat) (hW : 1 ≤ W) :
    decode_bytesChk B W = some (decode_bytes B W) := by
  unfold decode_bytesChk decode_bytes
  by_cases hB : B = []
  · rw [if_pos hB, if_pos hB]
  · rw [if_neg hB, if_neg hB]
    by_cases hlen : B.length < 65536
    · rw [if_pos hlen, if_pos hlen]
      exact decode_bytes_sequentialChk_eq B
    · rw [if_neg hlen, if_neg hlen]
      exact decode_bytes_parallelChk_eq B W hW

/-- The `check` scan with every `usize` subtraction guarded
(`i - 1`, `i - line_start`, `len - 1`, `len - line_start`). -/
def checkGoChk (input : List Nat) :
    List Nat → Nat → Nat → Nat → Bool → List Warning → Option (List Warning)
  | [], _, line, lineStart, escaped, ws =>
      let len := input.length
      let ws2o : Option (List Warning) :=
        if escaped then
          if 1 ≤ len ∧ lineStart ≤ len then
            some (ws ++ [⟨WarningKind.DanglingBackslash, len - 1, line,
              len - lineStart⟩])
          else none
        else some ws
      ws2o.bind (fun ws2 =>
        if lineStart ≠ len then
          if lineStart ≤ len then
            some (ws2 ++ [⟨WarningKind.NoTerminalLf, len, line,
              len - lineStart + 1⟩])
          else none
        else some ws2)
  | b :: rest, i, line, lineStart, escaped, ws =>
      let ws2o : Option (List Warning) :=
        if escaped then
          (if b = 110 ∨ b = 92 then some ws
           else if 1 ≤ i ∧ lineStart ≤ i then
             (if b = 10 then
               some (ws ++ [⟨WarningKind.DanglingBackslash, i - 1, line,
                 i - lineStart⟩])
             else
               some (ws ++ [⟨WarningKind.UnknownEscape b, i - 1, line,
                 i - lineStart⟩]))
           else none)
        else some ws
      let escaped2 := if escaped then false else b == 92
      ws2o.bind (fun ws2 =>
        if b = 10 then checkGoChk input rest (i + 1) (line + 1) (i + 1) escaped2 ws2
        else checkGoChk input rest (i + 1) line lineStart escaped2 ws2)

def checkChk (input : List Nat) : Option (List Warning) :=
  if input = [] then some [] else checkGoChk input input 0 1 0 false []

lemma checkGoChk_eq (input : List Nat) :
    ∀ (rem : List Nat) (i line lineStart : Nat) (escaped : Bool)
      (ws : List Warning),
      rem = input.drop i → i ≤ input.length → lineStart ≤ i →
      (escaped = true → 1 ≤ i) →
      checkGoChk input rem i line lineStart escaped ws =
        some (checkGo input rem i line lineStart escaped ws) := by
  intro rem
  induction rem with
  | nil =>
      intro i line lineStart escaped ws hrem hlen hls hesc
      have hi : i = input.length := by
        have := congrArg List.length hrem
        simp at this
        omega
      subst hi
      rw [checkGoChk, checkGo]
      cases escaped with
      | false =>
          simp only [if_false, Option.some_bind, Bool.false_eq_true]
          by_cases hne : lineStart ≠ input.length
          · rw [if_pos hne, if_pos hne, if_pos (by omega : lineStart ≤ input.length)]
          · rw [if_neg hne, if_neg hne]
      | true =>
          have h1 : 1 ≤ input.length := hesc rfl
          simp only [eq_self_iff_true, if_true]
          rw [if_pos (⟨h1, hls⟩ : 1 ≤ input.length ∧ lineStart ≤ input.length),
            Option.some_bind]
          by_cases hne : lineStart ≠ input.length
          · rw [if_pos hne, if_pos hne, if_pos (by omega : lineStart ≤ input.length)]
          · rw [if_neg hne, if_neg hne]
  | cons b rest ih =>
      intro i line lineStart escaped ws hrem hlen hls hesc
      obtain ⟨hpos, _, hrest⟩ := drop_cons_inv input i b rest hrem.symm
      rw [checkGoChk, checkGo]
      cases escaped with
      | false =>
          simp only [if_false, Option.some_bind, Bool.false_eq_true]
          by_cases hb : b = 10
          · rw [if_pos hb, if_pos hb]
            exact ih (i + 1) (line + 1) (i + 1) _ ws hrest (by omega) le_rfl
              (fun _ => by omega)
          · rw [if_neg hb, if_neg hb]
            exact ih (i + 1) line lineStart _ ws hrest (by omega) (by omega)
              (fun _ => by omega)
      | true =>
          have h1 : 1 ≤ i := hesc rfl
          by_cases hnb : b = 110 ∨ b = 92
          · have hb : ¬ b = 10 := by rcases hnb with h | h <;> omega
            simp only [eq_self_iff_true, if_true, if_pos hnb, Option.some_bind,
              if_neg hb]
            exact ih (i + 1) line lineStart false ws hrest (by omega) (by omega)
              (fun h => by simp at h)
          · simp only [eq_self_iff_true, if_true, if_neg hnb,
              if_pos (⟨h1, hls⟩ : 1 ≤ i ∧ lineStart ≤ i)]
            by_cases hb : b = 10
            · simp only [if_pos hb, Option.some_bind]
              exact ih (i + 1) (line + 1) (i + 1) false
                (ws ++ [⟨WarningKind.DanglingBackslash, i - 1, line,
                  i - lineStart⟩]) hrest (by omega) le_rfl
                (fun h => by simp at h)
            · simp only [if_neg hb, Option.some_bind]
              exact ih (i + 1) line lineStart false
                (ws ++ [⟨WarningKind.UnknownEscape b, i - 1, line,
                  i - lineStart⟩]) hrest (by omega) (by omega)
                (fun h => by simp at h)

lemma checkChk_eq (B : List Nat) : checkChk B = some (check B) := by
  unfold checkChk check
  by_cases hB : B = []
  · rw [if_pos hB, if_pos hB]
  · rw [if_neg hB, if_neg hB]
    exact checkGoChk_eq B B 0 1 0 false [] (List.drop_zero B).symm
      (Nat.zero_le _) le_rfl (fun h => by simp at h)

lemma utf8Form_append {X Y : List Nat} (hX : Utf8Form X) (hY : Utf8Form Y) :
    Utf8Form (X ++ Y) := by
  induction hX with
  | nil => exact hY
  | ascii b rest hb _ ih => exact Utf8Form.ascii b _ hb ih
  | two b c1 rest h194 h223 hc1a hc1b _ ih =>
      exact Utf8Form.two b c1 _ h194 h223 hc1a hc1b ih
  | three b c1 c2 rest h224 h239 hok hc2a hc2b _ ih =>
      exact Utf8Form.three b c1 c2 _ h224 h239 hok hc2a hc2b ih
  | four b c1 c2 c3 rest h240 h244 hok hc2a hc2b hc3a hc3b _ ih =>
      exact Utf8Form.four b c1 c2 c3 _ h240 h244 hok hc2a hc2b hc3a hc3b ih

/-- The escape loop inserts only ASCII bytes, so it preserves UTF-8
validity. -/
lemma flatMap_escByte_utf8Form {s : List Nat} (hs : Utf8Form s) :
    Utf8Form (s.flatMap escByte) := by
  induction hs with
  | nil => exact Utf8Form.nil
  | ascii b rest hb _ ih =>
      rw [List.flatMap_cons]
      refine utf8Form_append ?_ ih
      unfold escByte
      by_cases h92 : b = 92
      · rw [if_pos h92]
        exact Utf8Form.ascii 92 _ (by omega)
          (Utf8Form.ascii 92 _ (by omega) Utf8Form.nil)
      · rw [if_neg h92]
        by_cases h10 : b = 10
        · rw [if_pos h10]
          exact Utf8Form.ascii 92 _ (by omega)
            (Utf8Form.ascii 110 _ (by omega) Utf8Form.nil)
        · rw [if_neg h10]
          exact Utf8Form.ascii b _ hb Utf8Form.nil
  | two b c1 rest h194 h223 hc1a hc1b _ ih =>
      rw [List.flatMap_cons, List.flatMap_cons]
      have hb : escByte b = [b] := by
        unfold escByte
        rw [if_neg (by omega : ¬ b = 92), if_neg (by omega : ¬ b = 10)]
      have hc : escByte c1 = [c1] := by
        unfold escByte
        rw [if_neg (by omega : ¬ c1 = 92), if_neg (by omega : ¬ c1 = 10)]
      rw [hb, hc]
      exact Utf8Form.two b c1 _ h194 h223 hc1a hc1b ih
  | three b c1 c2 rest h224 h239 hok hc2a hc2b _ ih =>
      have hc1r := threeOk_c1_range b c1 hok
      rw [List.flatMap_cons, List.flatMap_cons, List.flatMap_cons]
      have hb : escByte b = [b] := by
        unfold escByte
        rw [if_neg (by omega : ¬ b = 92), if_neg (by omega : ¬ b = 10)]
      have hc : escByte c1 = [c1] := by
        unfold escByte
        rw [if_neg (by omega : ¬ c1 = 92), if_neg (by omega : ¬ c1 = 10)]
      have hc2 : escByte c2 = [c2] := by
        unfold escByte
        rw [if_neg (by omega : ¬ c2 = 92), if_neg (by omega : ¬ c2 = 10)]
      rw [hb, hc, hc2]
      exact Utf8Form.three b c1 c2 _ h224 h239 hok hc2a hc2b ih
  | four b c1 c2 c3 rest h240 h244 hok hc2a hc2b hc3a hc3b _ ih =>
      have hc1r := fourOk_c1_range b c1 hok
      rw [List.flatMap_cons, List.flatMap_cons, List.flatMap_cons,
        List.flatMap_cons]
      have hb : escByte b = [b] := by
        unfold escByte
        rw [if_neg (by omega : ¬ b = 92), if_neg (by omega : ¬ b = 10)]
      have hc : escByte c1 = [c1] := by
        unfold escByte
        rw [if_neg (by omega : ¬ c1 = 92), if_neg (by omega : ¬ c1 = 10)]
      have hc2 : escByte c2 = [c2] := by
        unfold escByte
        rw [if_neg (by omega : ¬ c2 = 92), if_neg (by omega : ¬ c2 = 10)]
      have hc3 : escByte c3 = [c3] := by
        unfold escByte
        rw [if_neg (by omega : ¬ c3 = 92), if_neg (by omega : ¬ c3 = 10)]
      rw [hb, hc, hc2, hc3]
      exact Utf8Form.four b c1 c2 c3 _ h240 h244 hok hc2a hc2b hc3a hc3b ih

lemma escape_bytes_utf8Form {s : List Nat} (hs : Utf8Form s) :
    Utf8Form (escape_bytes s) := by
  unfold escape_bytes
  by_cases h1 : s = []
  · rw [if_pos h1]
    exact Utf8Form.ascii 92 [] (by omega) Utf8Form.nil
  · rw [if_neg h1]
    by_cases h2 : 10 ∈ s ∨ 92 ∈ s
    · rw [if_pos h2]
      exact flatMap_escByte_utf8Form hs
    · rw [if_neg h2]
      exact hs

lemma row_encode_utf8Form (row : Row) (hrow : ∀ c ∈ row, Utf8Form c) :
    Utf8Form (row.flatMap (fun c => escape_bytes c ++ [10])) := by
  induction row with
  | nil => exact Utf8Form.nil
  | cons c t ih =>
      rw [List.flatMap_cons]
      refine utf8Form_append ?_ (ih (fun x hx => hrow x (List.mem_cons_of_mem _ hx)))
      exact utf8Form_append (escape_bytes_utf8Form (hrow c (List.mem_cons_self _ _)))
        (Utf8Form.ascii 10 [] (by omega) Utf8Form.nil)

lemma encode_bytes_utf8Form (D : Doc) (hD : ∀ row ∈ D, ∀ c ∈ row, Utf8Form c) :
    Utf8Form (encode_bytes D) := by
  induction D with
  | nil => exact Utf8Form.nil
  | cons row rest ih =>
      unfold encode_bytes
      rw [List.flatMap_cons]
      refine utf8Form_append ?_ (ih (fun r hr => hD r (List.mem_cons_of_mem _ hr)))
      exact utf8Form_append
        (row_encode_utf8Form row (hD row (List.mem_cons_self _ _)))
        (Utf8Form.ascii 10 [] (by omega) Utf8Form.nil)

/-- `encode` (lib.rs 771-784): `encode_bytes` followed by
`String::from_utf8(result).unwrap()`; the unwrap panic is modelled by
`none`. -/
def encode (data : Doc) : Option (List Nat) :=
  if utf8Valid (encode_bytes data) = true then some (encode_bytes data) else none

lemma encode_eq (D : Doc) (hD : ∀ row ∈ D, ∀ c ∈ row, utf8Valid c = true) :
    encode D = some (encode_bytes D) := by
  unfold encode
  rw [if_pos]
  exact utf8Valid_of_form (encode_bytes_utf8Form D
    (fun r hr c hc => utf8Form_of_valid (hD r hr c hc)))

/-- **C8.** Totality of the byte-level entry points: with every
panicking operation of the source guarded (slice indexing and the
worker-count division in `decode_bytes`, the `usize` subtractions in
`check`, the `from_utf8(..).unwrap()` in `encode`), the checked
variants always return `some` of the unchecked result — for the decoder
under any worker count at least 1, for `check` on every input, and for
`encode` whenever its cells are strings (valid UTF-8). -/
theorem decode_encode_check_total :
    (∀ (B : List Nat) (W : Nat), 1 ≤ W →
      decode_bytesChk B W = some (decode_bytes B W)) ∧
    (∀ B : List Nat, checkChk B = some (check B)) ∧
    (∀ D : Doc, (∀ row ∈ D, ∀ c ∈ row, utf8Valid c = true) →
      encode D = some (encode_bytes D)) :=
  ⟨decode_bytesChk_eq, checkChk_eq, encode_eq⟩

/-- Witness for C8 at concrete inputs. -/
theorem decode_encode_check_total_witness :
    (1 ≤ 2 ∧ decode_bytesChk [97, 10, 98, 10, 10] 2 =
      some (decode_bytes [97, 10, 98, 10, 10] 2)) ∧
    checkChk [92, 120] = some (check [92, 120]) ∧
    ((∀ row ∈ ([[[104, 105]]] : Doc), ∀ c ∈ row, utf8Valid c = true) ∧
      encode [[[104, 105]]] = some (encode_bytes [[[104, 105]]])) :=
  ⟨⟨by omega, decode_encode_check_total.1 [97, 10, 98, 10, 10] 2 (by omega)⟩,
   decode_encode_check_total.2.1 [92, 120],
   ⟨by decide, decode_encode_check_total.2.2 [[[104, 105]]] (by decide)⟩⟩

end NSV
